import Mathlib

set_option maxRecDepth 100000
set_option maxHeartbeats 1000000

/-!
# Verification of the `wt_cache` write-through page cache

Shallow embedding of `src/lib.rs` (`WriteThroughCache`): a fixed-page,
write-through byte cache over a single backing file, with LRU eviction.

Modelling conventions:
* Bytes are `Nat` (values are irrelevant to the claims); buffers are `List Nat`.
* `u64` arithmetic is `Nat` with an explicit `% 2^64` (written `wrap`) at every
  operation that can exceed `u64::MAX`, i.e. release-profile wrapping
  semantics.  (`usize` quantities — `page_size`, `capacity`, lengths — never
  approach `2^64` on any path the claims touch.)
* The backing file is a total function `Nat → Nat` (sparse zero semantics)
  together with its physical length `file_len`; `read_exact` past the physical
  end fails, positioned writes extend the physical length.
* Fallible I/O is made explicit through an `Env` of fault flags: `readFails`
  models a failing `seek`/`read_exact`, `writeFails` a failing
  `seek`/`write_all`, `syncFails` a failing `sync_all` (after the bytes hit
  the file).  `noFault` is the fault-free environment.
* `HashMap` is an association list (`List (Nat × List Nat)`), `VecDeque` a
  `List Nat` whose head is the front (least recently used).
* Rust panics reachable only from invalid states (`page_size = 0` division)
  surface as the distinguished error `Err.panicked`.
-/

/-- Error taxonomy of the crate, one constructor per distinct error site:
`InvalidConfiguration` for the two bounds checks in `new`, `OutOfRange` for
the "Page out of bounds" error in `read_page`, `SizeMismatch` for the
"Data size must match page size" error in `write_page`, `IoFailure` for
failures of the underlying positioned I/O or durability flush, and
`panicked` for a Rust panic (division by zero when `page_size = 0`). -/
inductive Err where
  | InvalidConfiguration
  | OutOfRange
  | SizeMismatch
  | IoFailure
  | panicked
deriving DecidableEq

/-- Fault model for the backing-store handle: which per-page I/O operations
fail.  `readFails` = positioned read, `writeFails` = positioned write,
`syncFails` = durability flush (failing after the bytes reached the file). -/
structure Env where
  readFails : Nat → Bool
  writeFails : Nat → Bool
  syncFails : Nat → Bool

/-- The fault-free environment: every I/O operation succeeds. -/
def noFault : Env := ⟨fun _ => false, fun _ => false, fun _ => false⟩

/-- State of `WriteThroughCache` (src/lib.rs lines 23-30).  `cache` is the
page index (`AHashMap<u64, LinkedListNode>`), `usage_order` the recency
queue (front = least recently used), `file`/`file_len` the backing file's
contents and physical length, `file_size` the tracked logical length. -/
structure WriteThroughCache where
  page_size : Nat
  capacity : Nat
  cache : List (Nat × List Nat)
  usage_order : List Nat
  file : Nat → Nat
  file_len : Nat
  file_size : Nat

/-- `2^64`, the modulus of Rust `u64` arithmetic. -/
def U64 : Nat := 2 ^ 64

/-- Reduce a `u64` computation modulo `2^64` (release-profile wrapping). -/
def wrap (n : Nat) : Nat := n % U64

def MIN_PAGE_SIZE : Nat := 512
def MAX_PAGE_SIZE : Nat := 1024 * 1024
def DEFAULT_PAGE_SIZE : Nat := 64 * 1024
def MIN_CAPACITY : Nat := MIN_PAGE_SIZE
def MAX_CAPACITY : Nat := 1024 * 1024 * 1024
def DEFAULT_CAPACITY : Nat := 16 * 1024 * 1024

/-- `HashMap::insert`: add or replace the binding for `k`. -/
def mapInsert (m : List (Nat × List Nat)) (k : Nat) (v : List Nat) :
    List (Nat × List Nat) :=
  (k, v) :: m.filter (fun p => p.1 != k)

/-- `HashMap::remove`: drop the binding for `k`. -/
def mapRemove (m : List (Nat × List Nat)) (k : Nat) : List (Nat × List Nat) :=
  m.filter (fun p => p.1 != k)

/-- Overwrite the byte range `[pos, pos + data.length)` of a byte store with
`data`; used both for the positioned file write in `write_page` and as the
abstract-store update in the specification-side reasoning. -/
def overwrite (f : Nat → Nat) (pos : Nat) (data : List Nat) : Nat → Nat :=
  fun i => if pos ≤ i ∧ i < pos + data.length then data.getD (i - pos) 0 else f i

/-- `page[offset..offset + chunk.length].copy_from_slice(chunk)` on a byte
buffer (faithful when `offset + chunk.length ≤ page.length`, which holds at
every call site reachable from a valid state). -/
def patchList (page : List Nat) (offset : Nat) (chunk : List Nat) : List Nat :=
  page.take offset ++ chunk ++ page.drop (offset + chunk.length)

/-- src/lib.rs lines 202-205: remove `page_id` from the recency queue and
push it to the back (most recently used). -/
def promote (c : WriteThroughCache) (page_id : Nat) : WriteThroughCache :=
  { c with usage_order := c.usage_order.filter (fun x => x != page_id) ++ [page_id] }

/-- src/lib.rs lines 191-195: if the resident set already uses at least the
whole capacity, pop the least-recently-used page id and remove its page. -/
def evictIfFull (c : WriteThroughCache) : WriteThroughCache :=
  if c.cache.length * c.page_size ≥ c.capacity then
    match c.usage_order.head? with
    | some oldest =>
        { c with cache := mapRemove c.cache oldest,
                 usage_order := c.usage_order.tail }
    | none => c
  else c

/-- src/lib.rs lines 190-200: evict if at capacity, then insert the page as
most recently used. -/
def add_to_cache (c : WriteThroughCache) (page_id : Nat) (data : List Nat) :
    WriteThroughCache :=
  let c1 := evictIfFull c
  { c1 with cache := mapInsert c1.cache page_id data,
            usage_order := c1.usage_order ++ [page_id] }

/-- src/lib.rs lines 126-158: return the cached page (promoting it), else
reject pages whose end lies beyond `file_size`, else read the page from the
backing file and insert it into the cache.  The `read_size` computation
repeats the bound test exactly as the source does (lines 146-150). -/
def read_page (env : Env) (c : WriteThroughCache) (page_id : Nat) :
    Except Err (List Nat) × WriteThroughCache :=
  match List.lookup page_id c.cache with
  | some data => (.ok data, promote c page_id)
  | none =>
    if wrap (wrap (page_id + 1) * c.page_size) > c.file_size then
      (.error .OutOfRange, c)
    else
      let pos := wrap (page_id * c.page_size)
      let read_size :=
        if wrap (wrap (page_id + 1) * c.page_size) > c.file_size then
          c.file_size - pos
        else
          c.page_size
      if env.readFails page_id then (.error .IoFailure, c)
      else if c.file_len < pos + read_size then (.error .IoFailure, c)
      else
        let buffer := (List.range c.page_size).map
          (fun j => if j < read_size then c.file (pos + j) else 0)
        (.ok buffer, add_to_cache c page_id buffer)

/-- src/lib.rs lines 160-188: reject buffers that are not exactly one page;
write the page through to the file and flush; only then update (or insert)
the cached copy, raise `file_size`, and promote the page. -/
def write_page (env : Env) (c : WriteThroughCache) (page_id : Nat)
    (data : List Nat) : Except Err Unit × WriteThroughCache :=
  if data.length ≠ c.page_size then (.error .SizeMismatch, c)
  else
    let pos := wrap (page_id * c.page_size)
    if env.writeFails page_id then (.error .IoFailure, c)
    else
      let c1 := { c with file := overwrite c.file pos data,
                         file_len := max c.file_len (pos + data.length) }
      if env.syncFails page_id then (.error .IoFailure, c1)
      else
        let c2 :=
          if (List.lookup page_id c1.cache).isSome then
            { c1 with cache := mapInsert c1.cache page_id data }
          else
            add_to_cache c1 page_id data
        let c3 := { c2 with
          file_size := max c2.file_size (wrap (pos + data.length)) }
        (.ok (), promote c3 page_id)

/-- Loop body of `read` (src/lib.rs lines 83-95), with the output buffer
accumulated chunk by chunk (the source fills a preallocated buffer strictly
left to right, which is the same thing).  `remaining = 0` is the loop exit.
The recursion is structural on `fuel`, which `read` sets to the requested
size: every iteration with `page_size > 0` consumes at least one byte of
`remaining`, so the loop runs at most `remaining ≤ fuel` iterations and the
fuel-exhaustion branch is reachable only when `page_size = 0` — exactly the
case in which the Rust loop would panic with a division by zero, which is
what `Err.panicked` models (unreachable from any validly constructed
cache). -/
def readChunks (env : Env) (fuel : Nat) (c : WriteThroughCache)
    (remaining cur : Nat) (acc : List Nat) :
    Except Err (List Nat) × WriteThroughCache :=
  if remaining = 0 then (.ok acc, c)
  else
    match fuel with
    | 0 => (.error .panicked, c)
    | fuel + 1 =>
      if c.page_size = 0 then (.error .panicked, c)
      else
        let page_id := cur / c.page_size
        let offset := cur % c.page_size
        let read_size := min remaining (c.page_size - offset)
        match read_page env c page_id with
        | (.error e, c') => (.error e, c')
        | (.ok data, c') =>
            readChunks env fuel c' (remaining - read_size) (wrap (cur + read_size))
              (acc ++ (data.drop offset).take read_size)

/-- src/lib.rs lines 78-98: `read(address, size)`. -/
def read (env : Env) (c : WriteThroughCache) (address size : Nat) :
    Except Err (List Nat) × WriteThroughCache :=
  readChunks env size c size address []

/-- Loop body of `write` (src/lib.rs lines 104-121): load the current page
(treating ANY `read_page` error as an all-zero page — the source matches
`Err(_)`), patch the chunk in place, write the page through.  Structural
fuel recursion exactly as in `readChunks`. -/
def writeChunks (env : Env) (fuel : Nat) (c : WriteThroughCache)
    (data : List Nat) (remaining cur : Nat) :
    Except Err Unit × WriteThroughCache :=
  if remaining = 0 then (.ok (), c)
  else
    match fuel with
    | 0 => (.error .panicked, c)
    | fuel + 1 =>
      if c.page_size = 0 then (.error .panicked, c)
      else
        let page_id := cur / c.page_size
        let offset := cur % c.page_size
        let write_size := min remaining (c.page_size - offset)
        let loaded := read_page env c page_id
        let page_data :=
          match loaded.1 with
          | .ok d => d
          | .error _ => List.replicate c.page_size 0
        let patched := patchList page_data offset
          ((data.drop (data.length - remaining)).take write_size)
        match write_page env loaded.2 page_id patched with
        | (.error e, c'') => (.error e, c'')
        | (.ok _, c'') =>
            writeChunks env fuel c'' data (remaining - write_size)
              (wrap (cur + write_size))

/-- src/lib.rs lines 100-124: `write(address, data)`. -/
def write (env : Env) (c : WriteThroughCache) (address : Nat) (data : List Nat) :
    Except Err Unit × WriteThroughCache :=
  writeChunks env data.length c data data.length address

/-- src/lib.rs lines 33-76: `WriteThroughCache::new`.  The backing file is
opened (and created if absent) and its metadata read BEFORE the two bounds
checks run — exactly the source's statement order.  The second component of
the result records whether that file-open I/O was performed, so the
construction-order facts are visible in the model.  `f`/`fileLen` are the
contents and length of the (possibly pre-existing) backing file. -/
def new (openFails : Bool) (f : Nat → Nat) (fileLen : Nat)
    (page_size? capacity? : Option Nat) :
    Except Err WriteThroughCache × Bool :=
  if openFails then (.error .IoFailure, true)
  else
    let page_size := page_size?.getD DEFAULT_PAGE_SIZE
    let capacity := capacity?.getD DEFAULT_CAPACITY
    if page_size < MIN_PAGE_SIZE ∨ capacity < MIN_CAPACITY then
      (.error .InvalidConfiguration, true)
    else if page_size > MAX_PAGE_SIZE ∨ capacity > MAX_CAPACITY then
      (.error .InvalidConfiguration, true)
    else
      (.ok { page_size := page_size, capacity := capacity, cache := [],
             usage_order := [], file := f, file_len := fileLen,
             file_size := fileLen }, true)

/-- The cache state produced by a successful construction over an empty
backing file (`new false (fun _ => 0) 0 (some ps) (some cap)`). -/
def freshC (ps cap : Nat) : WriteThroughCache :=
  { page_size := ps, capacity := cap, cache := [], usage_order := [],
    file := fun _ => 0, file_len := 0, file_size := 0 }

/-- Run a list of `write` calls in sequence, stopping at the first error. -/
def runWrites (env : Env) (c : WriteThroughCache) :
    List (Nat × List Nat) → Except Err Unit × WriteThroughCache
  | [] => (.ok (), c)
  | (a, d) :: rest =>
    match write env c a d with
    | (.ok _, c') => runWrites env c' rest
    | (.error e, c') => (.error e, c')

/-- A public operation of the cache. -/
inductive Op where
  | rd (address size : Nat)
  | wr (address : Nat) (data : List Nat)

/-- Execute one public operation, keeping the (possibly partially mutated)
state whether or not the operation reported an error. -/
def runOp (env : Env) (c : WriteThroughCache) : Op → WriteThroughCache
  | .rd a s => (read env c a s).2
  | .wr a d => (write env c a d).2

/-- Execute a sequence of public operations. -/
def runOps (env : Env) (c : WriteThroughCache) (ops : List Op) :
    WriteThroughCache :=
  ops.foldl (runOp env) c

/-! ## Basic facts about the model components -/

lemma U64_pos : 0 < U64 := by norm_num [U64]

lemma wrap_eq_of_lt {n : Nat} (h : n < U64) : wrap n = n := Nat.mod_eq_of_lt h

lemma lookup_mem {m : List (Nat × List Nat)} {k : Nat} {v : List Nat}
    (h : List.lookup k m = some v) : (k, v) ∈ m := by
  induction m with
  | nil => simp at h
  | cons p m ih =>
    obtain ⟨a, b⟩ := p
    rw [List.lookup_cons] at h
    split at h
    · next heq =>
      cases h
      have : k = a := by simpa using heq
      simp [this]
    · exact List.mem_cons_of_mem _ (ih h)

lemma mem_mapInsert {m : List (Nat × List Nat)} {k : Nat} {v : List Nat}
    {p : Nat × List Nat} (h : p ∈ mapInsert m k v) : p = (k, v) ∨ p ∈ m := by
  rcases List.mem_cons.mp h with h | h
  · exact .inl h
  · exact .inr (List.mem_of_mem_filter h)

lemma mem_mapInsert' {m : List (Nat × List Nat)} {k : Nat} {v : List Nat}
    {p : Nat × List Nat} (h : p ∈ mapInsert m k v) :
    p = (k, v) ∨ (p ∈ m ∧ p.1 ≠ k) := by
  rcases List.mem_cons.mp h with h | h
  · exact .inl h
  · right
    obtain ⟨hm, hp⟩ := List.mem_filter.mp h
    exact ⟨hm, by simpa using hp⟩

lemma mem_mapRemove {m : List (Nat × List Nat)} {k : Nat}
    {p : Nat × List Nat} (h : p ∈ mapRemove m k) : p ∈ m :=
  List.mem_of_mem_filter h

lemma mem_add_to_cache {c : WriteThroughCache} {pid : Nat} {d : List Nat}
    {p : Nat × List Nat} (h : p ∈ (add_to_cache c pid d).cache) :
    p = (pid, d) ∨ p ∈ c.cache := by
  unfold add_to_cache at h
  rcases mem_mapInsert h with h | h
  · exact .inl h
  · right
    unfold evictIfFull at h
    split at h
    · split at h
      · exact mem_mapRemove h
      · exact h
    · exact h

/-! Field-preservation facts: `promote` touches only `usage_order`;
`evictIfFull` and `add_to_cache` touch only `cache` and `usage_order`. -/

@[simp] lemma promote_page_size (c : WriteThroughCache) (p : Nat) :
    (promote c p).page_size = c.page_size := rfl
@[simp] lemma promote_capacity (c : WriteThroughCache) (p : Nat) :
    (promote c p).capacity = c.capacity := rfl
@[simp] lemma promote_cache (c : WriteThroughCache) (p : Nat) :
    (promote c p).cache = c.cache := rfl
@[simp] lemma promote_file (c : WriteThroughCache) (p : Nat) :
    (promote c p).file = c.file := rfl
@[simp] lemma promote_file_len (c : WriteThroughCache) (p : Nat) :
    (promote c p).file_len = c.file_len := rfl
@[simp] lemma promote_file_size (c : WriteThroughCache) (p : Nat) :
    (promote c p).file_size = c.file_size := rfl

@[simp] lemma evictIfFull_page_size (c : WriteThroughCache) :
    (evictIfFull c).page_size = c.page_size := by
  unfold evictIfFull
  split
  · split <;> rfl
  · rfl
@[simp] lemma evictIfFull_capacity (c : WriteThroughCache) :
    (evictIfFull c).capacity = c.capacity := by
  unfold evictIfFull
  split
  · split <;> rfl
  · rfl
@[simp] lemma evictIfFull_file (c : WriteThroughCache) :
    (evictIfFull c).file = c.file := by
  unfold evictIfFull
  split
  · split <;> rfl
  · rfl
@[simp] lemma evictIfFull_file_len (c : WriteThroughCache) :
    (evictIfFull c).file_len = c.file_len := by
  unfold evictIfFull
  split
  · split <;> rfl
  · rfl
@[simp] lemma evictIfFull_file_size (c : WriteThroughCache) :
    (evictIfFull c).file_size = c.file_size := by
  unfold evictIfFull
  split
  · split <;> rfl
  · rfl

@[simp] lemma add_to_cache_page_size (c : WriteThroughCache) (pid : Nat)
    (d : List Nat) : (add_to_cache c pid d).page_size = c.page_size := by
  simp [add_to_cache]
@[simp] lemma add_to_cache_capacity (c : WriteThroughCache) (pid : Nat)
    (d : List Nat) : (add_to_cache c pid d).capacity = c.capacity := by
  simp [add_to_cache]
@[simp] lemma add_to_cache_file (c : WriteThroughCache) (pid : Nat)
    (d : List Nat) : (add_to_cache c pid d).file = c.file := by
  simp [add_to_cache]
@[simp] lemma add_to_cache_file_len (c : WriteThroughCache) (pid : Nat)
    (d : List Nat) : (add_to_cache c pid d).file_len = c.file_len := by
  simp [add_to_cache]
@[simp] lemma add_to_cache_file_size (c : WriteThroughCache) (pid : Nat)
    (d : List Nat) : (add_to_cache c pid d).file_size = c.file_size := by
  simp [add_to_cache]

/-! Evaluation lemmas for `read_page`, one per control path. -/

lemma read_page_hit {c : WriteThroughCache} {pid : Nat} {d : List Nat}
    (env : Env) (h : List.lookup pid c.cache = some d) :
    read_page env c pid = (.ok d, promote c pid) := by
  unfold read_page
  rw [h]

lemma read_page_oob {c : WriteThroughCache} {pid : Nat} (env : Env)
    (h : List.lookup pid c.cache = none)
    (h2 : wrap (wrap (pid + 1) * c.page_size) > c.file_size) :
    read_page env c pid = (.error .OutOfRange, c) := by
  unfold read_page
  rw [h]
  simp only [if_pos h2]

lemma read_page_miss_ok {c : WriteThroughCache} {pid : Nat} {env : Env}
    (h : List.lookup pid c.cache = none)
    (h2 : ¬ wrap (wrap (pid + 1) * c.page_size) > c.file_size)
    (h3 : env.readFails pid = false)
    (h4 : ¬ c.file_len < wrap (pid * c.page_size) + c.page_size) :
    read_page env c pid =
      (.ok ((List.range c.page_size).map
              fun j => c.file (wrap (pid * c.page_size) + j)),
       add_to_cache c pid ((List.range c.page_size).map
              fun j => c.file (wrap (pid * c.page_size) + j))) := by
  unfold read_page
  rw [h]
  simp only [if_neg h2, h3, Bool.false_eq_true, if_neg h4, if_false]
  have hbuf : ((List.range c.page_size).map
      fun j => if j < c.page_size then c.file (wrap (pid * c.page_size) + j) else 0)
      = (List.range c.page_size).map
          fun j => c.file (wrap (pid * c.page_size) + j) := by
    apply List.map_congr_left
    intro j hj
    rw [if_pos (List.mem_range.mp hj)]
  rw [hbuf]

/-! ## List access helpers -/

lemma getD_map_range {f : Nat → Nat} {n j d : Nat} (h : j < n) :
    ((List.range n).map f).getD j d = f j := by
  rw [List.getD_eq_getElem _ _ (by simpa using h)]
  simp

lemma getD_replicate {x n j d : Nat} (h : j < n) :
    (List.replicate n x).getD j d = x := by
  rw [List.getD_eq_getElem _ _ (by simpa using h)]
  simp

lemma getD_take {l : List Nat} {n j d : Nat} (h : j < n) :
    (l.take n).getD j d = l.getD j d := by
  by_cases hl : j < l.length
  · rw [List.getD_eq_getElem _ _ (by simp; omega),
        List.getD_eq_getElem _ _ hl]
    exact List.getElem_take ..
  · rw [List.getD_eq_default _ _ (by simp; omega),
        List.getD_eq_default _ _ (by omega)]

lemma getD_drop {l : List Nat} {n j d : Nat} :
    (l.drop n).getD j d = l.getD (n + j) d := by
  by_cases hl : n + j < l.length
  · rw [List.getD_eq_getElem _ _ (by simp; omega),
        List.getD_eq_getElem _ _ hl]
    exact List.getElem_drop ..
  · rw [List.getD_eq_default _ _ (by simp; omega),
        List.getD_eq_default _ _ (by omega)]

lemma getD_drop_take {l : List Nat} {off rs j d : Nat} (h : j < rs) :
    ((l.drop off).take rs).getD j d = l.getD (off + j) d := by
  rw [getD_take h, getD_drop]

lemma length_drop_take {l : List Nat} {off rs : Nat} (h : off + rs ≤ l.length) :
    ((l.drop off).take rs).length = rs := by
  simp
  omega

/-! ## `overwrite` and `patchList` -/

lemma overwrite_inside {f : Nat → Nat} {pos : Nat} {data : List Nat} {j : Nat}
    (h : j < data.length) : overwrite f pos data (pos + j) = data.getD j 0 := by
  unfold overwrite
  rw [if_pos (by omega)]
  congr 1
  omega

lemma overwrite_outside {f : Nat → Nat} {pos : Nat} {data : List Nat} {i : Nat}
    (h : ¬ (pos ≤ i ∧ i < pos + data.length)) : overwrite f pos data i = f i := by
  unfold overwrite
  rw [if_neg h]

lemma overwrite_nil {f : Nat → Nat} {pos : Nat} : overwrite f pos [] = f := by
  funext i
  unfold overwrite
  rw [if_neg (by simp)]

lemma patchList_length {page chunk : List Nat} {off : Nat}
    (h : off + chunk.length ≤ page.length) :
    (patchList page off chunk).length = page.length := by
  simp [patchList]
  omega

lemma patchList_getD {page chunk : List Nat} {off j d : Nat}
    (h : off + chunk.length ≤ page.length) :
    (patchList page off chunk).getD j d =
      if off ≤ j ∧ j < off + chunk.length then chunk.getD (j - off) d
      else page.getD j d := by
  unfold patchList
  have hto : (page.take off).length = off := by simp; omega
  have hTC : (page.take off ++ chunk).length = off + chunk.length := by simp; omega
  by_cases h2 : j < off + chunk.length
  · rw [List.getD_append _ _ _ _ (by omega)]
    by_cases h1 : j < off
    · rw [List.getD_append _ _ _ _ (by omega), if_neg (by omega), getD_take h1]
    · rw [List.getD_append_right _ _ _ _ (by omega), hto, if_pos (by omega)]
  · rw [List.getD_append_right _ _ _ _ (by omega), hTC, if_neg (by omega), getD_drop]
    congr 1
    omega

/-! ## The simulation invariant

`CacheInv c A` relates a cache state reachable from a validly configured cache
over an initially empty (or page-aligned, zero-beyond-the-end) backing file
to the abstract byte store `A` it represents: the file mirrors `A`, `A` is
zero past the logical length, the logical length is page-aligned and equals
the physical length, and every resident page is an exact copy of its slice
of `A` and lies entirely within the logical length. -/
structure CacheInv (c : WriteThroughCache) (A : Nat → Nat) : Prop where
  ps_pos : 0 < c.page_size
  ps_dvd : c.page_size ∣ c.file_size
  fs_lt : c.file_size < U64
  len_eq : c.file_len = c.file_size
  file_eq : ∀ i, c.file i = A i
  beyond : ∀ i, c.file_size ≤ i → A i = 0
  cached : ∀ p ∈ c.cache, p.2.length = c.page_size ∧
    (∀ j, j < c.page_size → p.2.getD j 0 = A (p.1 * c.page_size + j)) ∧
    (p.1 + 1) * c.page_size ≤ c.file_size

lemma CacheInv.promote {c : WriteThroughCache} {A : Nat → Nat} (h : CacheInv c A)
    (pid : Nat) : CacheInv (promote c pid) A :=
  { ps_pos := h.ps_pos, ps_dvd := h.ps_dvd, fs_lt := h.fs_lt,
    len_eq := h.len_eq, file_eq := h.file_eq, beyond := h.beyond,
    cached := h.cached }

lemma CacheInv.add_to_cache {c : WriteThroughCache} {A : Nat → Nat} {pid : Nat}
    {d : List Nat} (h : CacheInv c A) (hd1 : d.length = c.page_size)
    (hd2 : ∀ j, j < c.page_size → d.getD j 0 = A (pid * c.page_size + j))
    (hd3 : (pid + 1) * c.page_size ≤ c.file_size) :
    CacheInv (add_to_cache c pid d) A := by
  refine ⟨?_, ?_, ?_, ?_, ?_, ?_, ?_⟩ <;>
    simp only [add_to_cache_page_size, add_to_cache_file, add_to_cache_file_len,
      add_to_cache_file_size]
  · exact h.ps_pos
  · exact h.ps_dvd
  · exact h.fs_lt
  · exact h.len_eq
  · exact h.file_eq
  · exact h.beyond
  · intro p hp
    rcases mem_add_to_cache hp with rfl | hp
    · exact ⟨hd1, hd2, hd3⟩
    · exact h.cached p hp

/-! ## Remaining control paths of `read_page` -/

lemma read_page_readfail {env : Env} {c : WriteThroughCache} {pid : Nat}
    (h : List.lookup pid c.cache = none)
    (h2 : ¬ wrap (wrap (pid + 1) * c.page_size) > c.file_size)
    (h3 : env.readFails pid = true) :
    read_page env c pid = (.error .IoFailure, c) := by
  unfold read_page
  rw [h]
  simp only [if_neg h2, h3, if_true]

lemma read_page_eof {env : Env} {c : WriteThroughCache} {pid : Nat}
    (h : List.lookup pid c.cache = none)
    (h2 : ¬ wrap (wrap (pid + 1) * c.page_size) > c.file_size)
    (h3 : env.readFails pid = false)
    (h4 : c.file_len < wrap (pid * c.page_size) + c.page_size) :
    read_page env c pid = (.error .IoFailure, c) := by
  unfold read_page
  rw [h]
  simp only [if_neg h2, h3, Bool.false_eq_true, if_false, if_pos h4]

/-- Arithmetic helper: an in-range page has no `u64` wrapping anywhere. -/
lemma inrange_no_wrap {c : WriteThroughCache} {A : Nat → Nat} {pid : Nat}
    (hInv : CacheInv c A) (hin : (pid + 1) * c.page_size ≤ c.file_size) :
    wrap (pid + 1) = pid + 1 ∧ wrap ((pid + 1) * c.page_size) = (pid + 1) * c.page_size ∧
    wrap (pid * c.page_size) = pid * c.page_size := by
  have hps := hInv.ps_pos
  have hfs := hInv.fs_lt
  have h1 : (pid + 1) * c.page_size < U64 := lt_of_le_of_lt hin hfs
  have h2 : pid + 1 ≤ (pid + 1) * c.page_size := Nat.le_mul_of_pos_right _ hps
  have h3 : pid * c.page_size ≤ (pid + 1) * c.page_size := by
    exact Nat.mul_le_mul_right _ (by omega)
  exact ⟨wrap_eq_of_lt (by omega), wrap_eq_of_lt h1, wrap_eq_of_lt (by omega)⟩

lemma evictIfFull_cache_length (c : WriteThroughCache) :
    (evictIfFull c).cache.length ≤ c.cache.length := by
  unfold evictIfFull
  split
  · split
    · simpa [mapRemove] using List.length_filter_le _ _
    · exact le_refl _
  · exact le_refl _

lemma add_to_cache_length (c : WriteThroughCache) (pid : Nat) (d : List Nat) :
    (add_to_cache c pid d).cache.length ≤ c.cache.length + 1 := by
  unfold add_to_cache mapInsert
  simp only [List.length_cons]
  have h1 := List.length_filter_le (fun p => p.1 != pid) (evictIfFull c).cache
  have h2 := evictIfFull_cache_length c
  omega

/-- Fetching an in-range page succeeds (hit or miss), returns exactly the
abstract contents of that page, preserves the invariant, and leaves the
configuration and the whole backing store untouched. -/
lemma read_page_ok_of_inrange {env : Env} {c : WriteThroughCache}
    {A : Nat → Nat} {pid : Nat} (hInv : CacheInv c A)
    (hrf : env.readFails pid = false)
    (hin : (pid + 1) * c.page_size ≤ c.file_size) :
    ∃ d c', read_page env c pid = (.ok d, c') ∧
      d.length = c.page_size ∧
      (∀ j, j < c.page_size → d.getD j 0 = A (pid * c.page_size + j)) ∧
      CacheInv c' A ∧
      c'.page_size = c.page_size ∧ c'.capacity = c.capacity ∧
      c'.file = c.file ∧ c'.file_len = c.file_len ∧
      c'.file_size = c.file_size ∧ c'.cache.length ≤ c.cache.length + 1 := by
  obtain ⟨hw1, hw2, hw3⟩ := inrange_no_wrap hInv hin
  cases hlk : List.lookup pid c.cache with
  | some d =>
    obtain ⟨hd1, hd2, _⟩ := hInv.cached _ (lookup_mem hlk)
    exact ⟨d, promote c pid, read_page_hit env hlk, hd1, hd2, hInv.promote pid,
      rfl, rfl, rfl, rfl, rfl, by simp⟩
  | none =>
    have h2 : ¬ wrap (wrap (pid + 1) * c.page_size) > c.file_size := by
      rw [hw1, hw2]
      omega
    have h4 : ¬ c.file_len < wrap (pid * c.page_size) + c.page_size := by
      rw [hw3, hInv.len_eq]
      have : pid * c.page_size + c.page_size = (pid + 1) * c.page_size := by ring
      omega
    refine ⟨_, _, read_page_miss_ok hlk h2 hrf h4, by simp, ?_, ?_, by simp,
      by simp, by simp, by simp, by simp, add_to_cache_length ..⟩
    · intro j hj
      rw [getD_map_range hj, hw3, hInv.file_eq]
    · apply hInv.add_to_cache
      · simp
      · intro j hj
        rw [getD_map_range hj, hw3, hInv.file_eq]
      · exact hin

lemma lookup_none_not_mem {m : List (Nat × List Nat)} {k : Nat} {v : List Nat}
    (h : List.lookup k m = none) : (k, v) ∉ m := by
  intro hmem
  induction m with
  | nil => simp at hmem
  | cons p m ih =>
    obtain ⟨a, b⟩ := p
    rw [List.lookup_cons] at h
    split at h
    · exact absurd h (by simp)
    · next hne =>
      rcases List.mem_cons.mp hmem with heq | hmem'
      · have : k = a := congrArg Prod.fst heq
        simp [this] at hne
      · exact ih h hmem'

/-- Any successful `read_page` (in any environment) returns exactly the
abstract contents of the requested page, provided the page-end bound does
not wrap, and preserves the invariant without touching the store. -/
lemma read_page_ok_inv {env : Env} {c : WriteThroughCache} {A : Nat → Nat}
    {pid : Nat} {d : List Nat} {c' : WriteThroughCache} (hInv : CacheInv c A)
    (hnw : (pid + 1) * c.page_size < U64)
    (hres : read_page env c pid = (.ok d, c')) :
    d.length = c.page_size ∧
    (∀ j, j < c.page_size → d.getD j 0 = A (pid * c.page_size + j)) ∧
    CacheInv c' A ∧ c'.page_size = c.page_size ∧ c'.capacity = c.capacity ∧
    c'.file = c.file ∧ c'.file_len = c.file_len ∧ c'.file_size = c.file_size := by
  have hps := hInv.ps_pos
  have hw1 : wrap (pid + 1) = pid + 1 := wrap_eq_of_lt (by
    have : pid + 1 ≤ (pid + 1) * c.page_size := Nat.le_mul_of_pos_right _ hps
    omega)
  have hw2 : wrap ((pid + 1) * c.page_size) = (pid + 1) * c.page_size :=
    wrap_eq_of_lt hnw
  cases hlk : List.lookup pid c.cache with
  | some e =>
    rw [read_page_hit env hlk] at hres
    simp only [Prod.mk.injEq, Except.ok.injEq] at hres
    obtain ⟨rfl, rfl⟩ := hres
    obtain ⟨h1, h2, _⟩ := hInv.cached _ (lookup_mem hlk)
    exact ⟨h1, h2, hInv.promote pid, rfl, rfl, rfl, rfl, rfl⟩
  | none =>
    by_cases h2 : wrap (wrap (pid + 1) * c.page_size) > c.file_size
    · rw [read_page_oob env hlk h2] at hres
      simp at hres
    · have hin : (pid + 1) * c.page_size ≤ c.file_size := by
        rw [hw1, hw2] at h2
        omega
      have hw3 : wrap (pid * c.page_size) = pid * c.page_size := by
        have : pid * c.page_size ≤ (pid + 1) * c.page_size :=
          Nat.mul_le_mul_right _ (by omega)
        exact wrap_eq_of_lt (by omega)
      cases hrf : env.readFails pid with
      | true =>
        rw [read_page_readfail hlk h2 hrf] at hres
        simp at hres
      | false =>
        by_cases h4 : c.file_len < wrap (pid * c.page_size) + c.page_size
        · rw [read_page_eof hlk h2 hrf h4] at hres
          simp at hres
        · rw [read_page_miss_ok hlk h2 hrf h4] at hres
          simp only [Prod.mk.injEq, Except.ok.injEq] at hres
          obtain ⟨rfl, rfl⟩ := hres
          refine ⟨by simp, ?_, ?_, by simp, by simp, by simp, by simp, by simp⟩
          · intro j hj
            rw [getD_map_range hj, hw3, hInv.file_eq]
          · apply hInv.add_to_cache
            · simp
            · intro j hj
              rw [getD_map_range hj, hw3, hInv.file_eq]
            · exact hin

/-! ## Control paths of `write_page` -/

lemma write_page_mismatch {env : Env} {c : WriteThroughCache} {pid : Nat}
    {data : List Nat} (h : data.length ≠ c.page_size) :
    write_page env c pid data = (.error .SizeMismatch, c) := by
  unfold write_page
  rw [if_pos h]

lemma write_page_wfail {env : Env} {c : WriteThroughCache} {pid : Nat}
    {data : List Nat} (h : data.length = c.page_size)
    (h2 : env.writeFails pid = true) :
    write_page env c pid data = (.error .IoFailure, c) := by
  unfold write_page
  rw [if_neg (by simp [h]

)]
  simp only [h2, if_true]

lemma write_page_sfail {env : Env} {c : WriteThroughCache} {pid : Nat}
    {data : List Nat} (h : data.length = c.page_size)
    (h2 : env.writeFails pid = false) (h3 : env.syncFails pid = true) :
    write_page env c pid data =
      (.error .IoFailure,
       { c with file := overwrite c.file (wrap (pid * c.page_size)) data,
                file_len := max c.file_len (wrap (pid * c.page_size) + data.length) }) := by
  unfold write_page
  rw [if_neg (by simp [h])]
  simp only [h2, Bool.false_eq_true, if_false, h3, if_true]

lemma write_page_ok_present {env : Env} {c : WriteThroughCache} {pid : Nat}
    {data : List Nat} (h : data.length = c.page_size)
    (h2 : env.writeFails pid = false) (h3 : env.syncFails pid = false)
    (hlk : (List.lookup pid c.cache).isSome = true) :
    write_page env c pid data =
      (.ok (),
       promote
         { c with file := overwrite c.file (wrap (pid * c.page_size)) data,
                  file_len := max c.file_len (wrap (pid * c.page_size) + data.length),
                  cache := mapInsert c.cache pid data,
                  file_size := max c.file_size
                    (wrap (wrap (pid * c.page_size) + data.length)) } pid) := by
  unfold write_page
  rw [if_neg (by simp [h])]
  simp only [h2, Bool.false_eq_true, if_false, h3, hlk, if_true]

lemma write_page_ok_absent {env : Env} {c : WriteThroughCache} {pid : Nat}
    {data : List Nat} (h : data.length = c.page_size)
    (h2 : env.writeFails pid = false) (h3 : env.syncFails pid = false)
    (hlk : (List.lookup pid c.cache).isSome = false) :
    write_page env c pid data =
      (.ok (),
       promote
         { add_to_cache
             { c with file := overwrite c.file (wrap (pid * c.page_size)) data,
                      file_len := max c.file_len
                        (wrap (pid * c.page_size) + data.length) } pid data with
           file_size := max c.file_size
             (wrap (wrap (pid * c.page_size) + data.length)) } pid) := by
  unfold write_page
  rw [if_neg (by simp [h])]
  simp only [h2, Bool.false_eq_true, if_false, h3, hlk, if_false]
  rw [add_to_cache_file_size]

/-- Two distinct pages occupy disjoint byte ranges. -/
lemma page_disjoint {ps q pid j : Nat} (hne : q ≠ pid) (hj : j < ps) :
    ¬ (pid * ps ≤ q * ps + j ∧ q * ps + j < pid * ps + ps) := by
  rintro ⟨hlo, hhi⟩
  rcases Nat.lt_or_ge q pid with hlt | hge
  · have : (q + 1) * ps ≤ pid * ps := Nat.mul_le_mul_right _ (by omega)
    have : q * ps + ps ≤ pid * ps := by
      have hq : (q + 1) * ps = q * ps + ps := by ring
      omega
    omega
  · have hgt : pid + 1 ≤ q := by omega
    have : (pid + 1) * ps ≤ q * ps := Nat.mul_le_mul_right _ hgt
    have hq : (pid + 1) * ps = pid * ps + ps := by ring
    omega

lemma overwrite_congr {f g : Nat → Nat} {pos : Nat} {data : List Nat}
    (h : ∀ i, f i = g i) (i : Nat) :
    overwrite f pos data i = overwrite g pos data i := by
  unfold overwrite
  split
  · rfl
  · exact h i

/-- A successful `write_page` of a full in-range page buffer commits the
buffer to both the file and the cache and realises exactly the abstract
overwrite of that page, raising `file_size` to cover the page. -/
lemma write_page_ok {env : Env} {c : WriteThroughCache} {A : Nat → Nat}
    {pid : Nat} {data : List Nat} (hInv : CacheInv c A)
    (hlen : data.length = c.page_size)
    (hnw : (pid + 1) * c.page_size < U64)
    (hwf : env.writeFails pid = false) (hsf : env.syncFails pid = false) :
    ∃ c', write_page env c pid data = (.ok (), c') ∧
      CacheInv c' (overwrite A (pid * c.page_size) data) ∧
      c'.page_size = c.page_size ∧ c'.capacity = c.capacity ∧
      c'.file_size = max c.file_size ((pid + 1) * c.page_size) := by
  have hps := hInv.ps_pos
  have hw3 : wrap (pid * c.page_size) = pid * c.page_size := by
    have : pid * c.page_size ≤ (pid + 1) * c.page_size :=
      Nat.mul_le_mul_right _ (by omega)
    exact wrap_eq_of_lt (by omega)
  have hsum : pid * c.page_size + data.length = (pid + 1) * c.page_size := by
    rw [hlen]
    ring
  have hwsum : wrap (wrap (pid * c.page_size) + data.length) =
      (pid + 1) * c.page_size := by
    rw [hw3, hsum]
    exact wrap_eq_of_lt hnw
  -- the contents facts shared by both cache branches
  have hfile : ∀ i, overwrite c.file (wrap (pid * c.page_size)) data i =
      overwrite A (pid * c.page_size) data i := by
    intro i
    rw [hw3]
    exact overwrite_congr hInv.file_eq i
  have hbeyond : ∀ i, max c.file_size ((pid + 1) * c.page_size) ≤ i →
      overwrite A (pid * c.page_size) data i = 0 := by
    intro i hi
    rw [overwrite_outside (by omega)]
    exact hInv.beyond i (by omega)
  have hdvd : c.page_size ∣ max c.file_size ((pid + 1) * c.page_size) := by
    rcases max_choice c.file_size ((pid + 1) * c.page_size) with hm | hm <;> rw [hm]
    · exact hInv.ps_dvd
    · exact Dvd.intro_left _ rfl
  have hfslt : max c.file_size ((pid + 1) * c.page_size) < U64 :=
    max_lt hInv.fs_lt hnw
  have hself : ∀ j, j < c.page_size →
      data.getD j 0 = overwrite A (pid * c.page_size) data (pid * c.page_size + j) := by
    intro j hj
    rw [overwrite_inside (by omega)]
  have hother : ∀ p, p ∈ c.cache → p.1 ≠ pid → ∀ j, j < c.page_size →
      p.2.getD j 0 = overwrite A (pid * c.page_size) data (p.1 * c.page_size + j) := by
    intro p hp hne j hj
    rw [overwrite_outside (by
      have := page_disjoint hne hj
      omega)]
    exact (hInv.cached p hp).2.1 j hj
  cases hlk : (List.lookup pid c.cache).isSome with
  | true =>
    refine ⟨_, write_page_ok_present hlen hwf hsf hlk, ?_, rfl, rfl, ?_⟩
    · apply CacheInv.promote
      rw [hwsum, hw3, hsum, hInv.len_eq]
      refine { ps_pos := hps, ps_dvd := hdvd, fs_lt := hfslt, len_eq := rfl,
               file_eq := ?_, beyond := hbeyond, cached := ?_ }
      · intro i
        have := hfile i
        rw [hw3] at this
        exact this
      · intro p hp
        dsimp only at hp ⊢
        rcases mem_mapInsert' hp with rfl | ⟨hmem, hne⟩
        · refine ⟨hlen, hself, ?_⟩
          dsimp only
          omega
        · obtain ⟨hl, _, hb⟩ := hInv.cached p hmem
          refine ⟨hl, hother p hmem hne, ?_⟩
          omega
    · simp only [promote_file_size]
      rw [hwsum]
  | false =>
    refine ⟨_, write_page_ok_absent hlen hwf hsf hlk, ?_, by simp, by simp, ?_⟩
    · apply CacheInv.promote
      rw [hwsum]
      refine { ps_pos := by simpa using hps, ps_dvd := ?_, fs_lt := hfslt,
               len_eq := ?_, file_eq := ?_, beyond := hbeyond, cached := ?_ }
      · simpa using hdvd
      · simp only [add_to_cache_file_len]
        rw [hw3, hsum, hInv.len_eq]
      · simp only [add_to_cache_file]
        exact hfile
      · intro p hp
        simp only [add_to_cache_page_size] at hp ⊢
        rcases mem_add_to_cache hp with rfl | hp'
        · refine ⟨by simpa using hlen, ?_, ?_⟩
          · have := hself
            simpa using hself
          · try simp only [add_to_cache_page_size]
            omega
        · 
          have hne : p.1 ≠ pid := by
            intro hEq
            have hpp : p = (pid, p.2) := by
              cases p
              simp_all
            exact lookup_none_not_mem (Option.not_isSome_iff_eq_none.mp
              (by simp [hlk])) (hpp ▸ hp')
          obtain ⟨hl, _, hb⟩ := hInv.cached p hp'
          refine ⟨by simpa using hl, ?_, ?_⟩
          · have := hother p hp' hne
            simpa using this
          · try simp only [add_to_cache_page_size]
            omega
    · simp only [promote_file_size]
      rw [hwsum]

/-! ## Loop-step unfoldings and arithmetic for the public operations -/

lemma readChunks_step {env : Env} {fuel : Nat} {c : WriteThroughCache}
    {remaining cur : Nat} {acc : List Nat} (h0 : remaining ≠ 0)
    (hp : c.page_size ≠ 0) :
    readChunks env (fuel + 1) c remaining cur acc =
      match read_page env c (cur / c.page_size) with
      | (.error e, c') => (.error e, c')
      | (.ok data, c') =>
          readChunks env fuel c'
            (remaining - min remaining (c.page_size - cur % c.page_size))
            (wrap (cur + min remaining (c.page_size - cur % c.page_size)))
            (acc ++ (data.drop (cur % c.page_size)).take
              (min remaining (c.page_size - cur % c.page_size))) := by
  rw [readChunks]
  simp only [if_neg h0, if_neg hp]

lemma writeChunks_step {env : Env} {fuel : Nat} {c : WriteThroughCache}
    {data : List Nat} {remaining cur : Nat} (h0 : remaining ≠ 0)
    (hp : c.page_size ≠ 0) :
    writeChunks env (fuel + 1) c data remaining cur =
      match write_page env (read_page env c (cur / c.page_size)).2
        (cur / c.page_size)
        (patchList
          (match (read_page env c (cur / c.page_size)).1 with
           | .ok d => d
           | .error _ => List.replicate c.page_size 0)
          (cur % c.page_size)
          ((data.drop (data.length - remaining)).take
            (min remaining (c.page_size - cur % c.page_size)))) with
      | (.error e, c'') => (.error e, c'')
      | (.ok _, c'') =>
          writeChunks env fuel c'' data
            (remaining - min remaining (c.page_size - cur % c.page_size))
            (wrap (cur + min remaining (c.page_size - cur % c.page_size))) := by
  rw [writeChunks]
  simp only [if_neg h0, if_neg hp]

/-- For a page-aligned logical length, a page that is not fully in range
starts at or past the logical length. -/
lemma aligned_oob {ps fs pid : Nat} (hps : 0 < ps) (hdvd : ps ∣ fs)
    (h : fs < (pid + 1) * ps) : fs ≤ pid * ps := by
  obtain ⟨k, rfl⟩ := hdvd
  have hk : k ≤ pid := by
    by_contra hk
    push_neg at hk
    have h2 : (pid + 1) * ps ≤ k * ps := Nat.mul_le_mul_right _ hk
    have h3 : k * ps = ps * k := Nat.mul_comm ..
    omega
  have h4 : ps * k ≤ ps * pid := Nat.mul_le_mul_left _ hk
  have h5 : ps * pid = pid * ps := Nat.mul_comm ..
  omega

/-- Under the invariant, fetching a page that is not fully in range fails
with `OutOfRange` and does not change the state. -/
lemma read_page_oob_of_inv {env : Env} {c : WriteThroughCache} {A : Nat → Nat}
    {pid : Nat} (hInv : CacheInv c A) (hnw : (pid + 1) * c.page_size < U64)
    (h : (pid + 1) * c.page_size > c.file_size) :
    read_page env c pid = (.error .OutOfRange, c) := by
  have hps := hInv.ps_pos
  have hw1 : wrap (pid + 1) = pid + 1 := wrap_eq_of_lt (by
    have : pid + 1 ≤ (pid + 1) * c.page_size := Nat.le_mul_of_pos_right _ hps
    omega)
  cases hlk : List.lookup pid c.cache with
  | some d =>
    obtain ⟨_, _, hb⟩ := hInv.cached _ (lookup_mem hlk)
    have : (pid + 1) * c.page_size ≤ c.file_size := by simpa using hb
    omega
  | none =>
    exact read_page_oob env hlk (by rw [hw1, wrap_eq_of_lt hnw]; omega)

lemma overwrite_split {A : Nat → Nat} {a w : Nat} {l : List Nat}
    (h : w ≤ l.length) :
    overwrite (overwrite A a (l.take w)) (a + w) (l.drop w) = overwrite A a l := by
  funext i
  unfold overwrite
  simp only [List.length_take, List.length_drop]
  by_cases h1 : a + w ≤ i ∧ i < a + w + (l.length - w)
  · rw [if_pos h1, if_pos (by omega), getD_drop]
    congr 1
    omega
  · rw [if_neg h1]
    by_cases h2 : a ≤ i ∧ i < a + min w l.length
    · rw [if_pos h2, if_pos (by omega), getD_take (by omega)]
    · rw [if_neg h2, if_neg (by omega)]

/-- Loading a page on the (fault-free) write path: whether the fetch
succeeds or fails with `OutOfRange` (the only possible error), the buffer
the write loop continues with — the fetched page or the all-zero fallback —
is exactly the abstract contents of the page. -/
lemma write_load_page {c : WriteThroughCache} {A : Nat → Nat} {pid : Nat}
    (hInv : CacheInv c A) (hnw : (pid + 1) * c.page_size < U64) :
    ∃ pd cA,
      (match (read_page noFault c pid).1 with
       | .ok d => d
       | .error _ => List.replicate c.page_size 0) = pd ∧
      (read_page noFault c pid).2 = cA ∧
      pd.length = c.page_size ∧
      (∀ j, j < c.page_size → pd.getD j 0 = A (pid * c.page_size + j)) ∧
      CacheInv cA A ∧ cA.page_size = c.page_size ∧ cA.capacity = c.capacity ∧
      cA.file_size = c.file_size := by
  by_cases hin : (pid + 1) * c.page_size ≤ c.file_size
  · obtain ⟨d, cA, hrp, hdlen, hdval, hInvA, hpsA, hcapA, _, _, hfsA, _⟩ :=
      @read_page_ok_of_inrange noFault _ _ _ hInv rfl hin
    refine ⟨d, cA, ?_, ?_, hdlen, hdval, hInvA, hpsA, hcapA, hfsA⟩
    · rw [hrp]
    · rw [hrp]
  · have hrp : read_page noFault c pid = (.error .OutOfRange, c) :=
      read_page_oob_of_inv hInv hnw (by omega)
    have hzero : ∀ j, j < c.page_size → A (pid * c.page_size + j) = 0 := by
      intro j hj
      apply hInv.beyond
      have := @aligned_oob c.page_size c.file_size pid hInv.ps_pos hInv.ps_dvd (by omega)
      omega
    refine ⟨List.replicate c.page_size 0, c, ?_, ?_, by simp, ?_, hInv, rfl,
      rfl, rfl⟩
    · rw [hrp]
    · rw [hrp]
    · intro j hj
      rw [getD_replicate hj, hzero j hj]

/-- Fault-free write loop: from any state satisfying the invariant, writing
the last `remaining` bytes of `data` starting at `cur` succeeds and realises
exactly the abstract overwrite of that byte range, extending `file_size` to
cover it. -/
lemma writeChunks_ok {data : List Nat} :
    ∀ (fuel : Nat) (c : WriteThroughCache) (A : Nat → Nat) (remaining cur : Nat),
    CacheInv c A →
    remaining ≤ data.length →
    remaining ≤ fuel →
    cur + remaining + c.page_size ≤ U64 →
    ∃ c', writeChunks noFault fuel c data remaining cur = (.ok (), c') ∧
      CacheInv c' (overwrite A cur (data.drop (data.length - remaining))) ∧
      c'.page_size = c.page_size ∧ c'.capacity = c.capacity ∧
      c.file_size ≤ c'.file_size ∧
      (0 < remaining → cur + remaining ≤ c'.file_size) := by
  intro fuel
  induction fuel with
  | zero =>
    intro c A remaining cur hInv hlen hfuel hbound
    have h0 : remaining = 0 := by omega
    subst h0
    rw [writeChunks]
    simp only [if_pos rfl]
    refine ⟨c, rfl, ?_, rfl, rfl, le_refl _, by omega⟩
    rw [Nat.sub_zero, List.drop_length, overwrite_nil]
    exact hInv
  | succ fuel ih =>
    intro c A remaining cur hInv hlen hfuel hbound
    by_cases h0 : remaining = 0
    · subst h0
      rw [writeChunks]
      simp only [if_pos rfl]
      refine ⟨c, rfl, ?_, rfl, rfl, le_refl _, by omega⟩
      rw [Nat.sub_zero, List.drop_length, overwrite_nil]
      exact hInv
    · have hps := hInv.ps_pos
      have hpsne : c.page_size ≠ 0 := by omega
      have hoff : cur % c.page_size < c.page_size := Nat.mod_lt _ hps
      have hcur : c.page_size * (cur / c.page_size) + cur % c.page_size = cur :=
        Nat.div_add_mod cur c.page_size
      have hcur' : (cur / c.page_size) * c.page_size + cur % c.page_size = cur := by
        rw [Nat.mul_comm] at hcur
        exact hcur
      have hpend : (cur / c.page_size + 1) * c.page_size ≤ cur + c.page_size := by
        have h1 : (cur / c.page_size + 1) * c.page_size =
            (cur / c.page_size) * c.page_size + c.page_size := by ring
        omega
      have hnw : (cur / c.page_size + 1) * c.page_size < U64 := by omega
      obtain ⟨pd, cA, hpd_eq, hcA_eq, hpdlen, hpdval, hInvA, hpsA, hcapA, hfsA⟩ :=
        write_load_page hInv hnw
      have hw1 : 1 ≤ min remaining (c.page_size - cur % c.page_size) := by omega
      have hwr : min remaining (c.page_size - cur % c.page_size) ≤ remaining := by
        omega
      have hsuf : (data.drop (data.length - remaining)).length = remaining := by
        rw [List.length_drop]
        omega
      have hchunk : ((data.drop (data.length - remaining)).take
          (min remaining (c.page_size - cur % c.page_size))).length =
          min remaining (c.page_size - cur % c.page_size) := by
        rw [List.length_take]
        omega
      have hplen : (patchList pd (cur % c.page_size)
          ((data.drop (data.length - remaining)).take
            (min remaining (c.page_size - cur % c.page_size)))).length =
          cA.page_size := by
        rw [patchList_length (by omega), hpdlen, hpsA]
      have hpatchval : ∀ j, j < c.page_size →
          (patchList pd (cur % c.page_size)
            ((data.drop (data.length - remaining)).take
              (min remaining (c.page_size - cur % c.page_size)))).getD j 0 =
          overwrite A cur
            ((data.drop (data.length - remaining)).take
              (min remaining (c.page_size - cur % c.page_size)))
            ((cur / c.page_size) * c.page_size + j) := by
        intro j hj
        rw [patchList_getD (by omega)]
        unfold overwrite
        by_cases hc : cur % c.page_size ≤ j ∧
            j < cur % c.page_size + ((data.drop (data.length - remaining)).take
              (min remaining (c.page_size - cur % c.page_size))).length
        · rw [if_pos hc, if_pos (by omega)]
          congr 1
          omega
        · rw [if_neg hc, if_neg (by omega)]
          exact hpdval j hj
      obtain ⟨c'', hwp, hInv'', hps'', hcap'', hfs''⟩ :=
        @write_page_ok noFault _ _ (cur / c.page_size) _ hInvA hplen
          (by rw [hpsA]; omega) rfl rfl
      rw [hpsA] at hps'' hfs''
      rw [hcapA] at hcap''
      rw [hfsA] at hfs''
      have hAeq : overwrite A ((cur / c.page_size) * cA.page_size)
            (patchList pd (cur % c.page_size)
              ((data.drop (data.length - remaining)).take
                (min remaining (c.page_size - cur % c.page_size)))) =
          overwrite A cur
            ((data.drop (data.length - remaining)).take
              (min remaining (c.page_size - cur % c.page_size))) := by
        rw [hpsA]
        funext i
        by_cases hi : (cur / c.page_size) * c.page_size ≤ i ∧
            i < (cur / c.page_size) * c.page_size + c.page_size
        · have hj : i - (cur / c.page_size) * c.page_size < c.page_size := by omega
          have h1 : overwrite A ((cur / c.page_size) * c.page_size)
              (patchList pd (cur % c.page_size)
                ((data.drop (data.length - remaining)).take
                  (min remaining (c.page_size - cur % c.page_size)))) i =
              (patchList pd (cur % c.page_size)
                ((data.drop (data.length - remaining)).take
                  (min remaining (c.page_size - cur % c.page_size)))).getD
                (i - (cur / c.page_size) * c.page_size) 0 := by
            unfold overwrite
            rw [if_pos (by rw [hplen, hpsA]; omega)]
          rw [h1, hpatchval _ hj]
          congr 1
          omega
        · have h1 : overwrite A ((cur / c.page_size) * c.page_size)
              (patchList pd (cur % c.page_size)
                ((data.drop (data.length - remaining)).take
                  (min remaining (c.page_size - cur % c.page_size)))) i = A i := by
            apply overwrite_outside
            rw [hplen, hpsA]
            omega
          have h2 : overwrite A cur
              ((data.drop (data.length - remaining)).take
                (min remaining (c.page_size - cur % c.page_size))) i = A i := by
            apply overwrite_outside
            rw [hchunk]
            omega
          rw [h1, h2]
      rw [hAeq] at hInv''
      obtain ⟨cF, hrec, hInvF, hpsF, hcapF, hfsF, hlastF⟩ :=
        ih c'' (overwrite A cur
            ((data.drop (data.length - remaining)).take
              (min remaining (c.page_size - cur % c.page_size))))
          (remaining - min remaining (c.page_size - cur % c.page_size))
          (cur + min remaining (c.page_size - cur % c.page_size))
          hInv'' (by omega) (by omega) (by rw [hps'']; omega)
      have hdropdrop : data.drop (data.length -
            (remaining - min remaining (c.page_size - cur % c.page_size))) =
          (data.drop (data.length - remaining)).drop
            (min remaining (c.page_size - cur % c.page_size)) := by
        rw [List.drop_drop]
        congr 1
        omega
      rw [hdropdrop, overwrite_split (by omega)] at hInvF
      refine ⟨cF, ?_, hInvF, by omega, by omega, by omega, ?_⟩
      · rw [writeChunks_step h0 hpsne, hpd_eq, hcA_eq, hwp]
        rw [wrap_eq_of_lt (by omega)]
        exact hrec
      · intro _
        by_cases hrem : remaining - min remaining (c.page_size - cur % c.page_size) = 0
        · have hpe : (cur / c.page_size + 1) * c.page_size =
              (cur / c.page_size) * c.page_size + c.page_size := by ring
          have h1 : cur + remaining ≤
              (cur / c.page_size + 1) * c.page_size := by omega
          omega
        · have := hlastF (by omega)
          omega

/-- Splitting a mapped range at `s`. -/
lemma map_range_split {f : Nat → Nat} {r s : Nat} (h : s ≤ r) :
    (List.range r).map f =
      (List.range s).map f ++ (List.range (r - s)).map fun i => f (s + i) := by
  conv_lhs => rw [show r = s + (r - s) by omega]
  rw [List.range_add, List.map_append, List.map_map]
  rfl

/-- A fetched page sliced at `[offset, offset + rs)` is the abstract bytes
of `[cur, cur + rs)` when `cur` addresses that slice of the page. -/
lemma chunk_eq {d : List Nat} {A : Nat → Nat} {ps pid off rs cur : Nat}
    (hdlen : d.length = ps)
    (hdval : ∀ j, j < ps → d.getD j 0 = A (pid * ps + j))
    (hoffrs : off + rs ≤ ps) (hcur : pid * ps + off = cur) :
    (d.drop off).take rs = (List.range rs).map fun i => A (cur + i) := by
  apply List.ext_getElem
  · simp
    omega
  · intro i h1 h2
    have hi : i < rs := by
      simp at h2
      exact h2
    rw [show ((d.drop off).take rs)[i] = ((d.drop off).take rs).getD i 0 from
          (List.getD_eq_getElem _ _ h1).symm,
        getD_drop_take hi,
        show ((List.range rs).map fun i => A (cur + i))[i] =
            ((List.range rs).map fun i => A (cur + i)).getD i 0 from
          (List.getD_eq_getElem _ _ h2).symm,
        getD_map_range hi, hdval (off + i) (by omega)]
    congr 1
    omega

/-- Fault-free read loop: reading a byte range that lies entirely within the
logical length succeeds and returns exactly the abstract bytes of that
range, leaving the store and configuration untouched. -/
lemma readChunks_ok {A : Nat → Nat} :
    ∀ (fuel : Nat) (c : WriteThroughCache) (remaining cur : Nat) (acc : List Nat),
    CacheInv c A →
    remaining ≤ fuel →
    cur + remaining ≤ c.file_size →
    ∃ c', readChunks noFault fuel c remaining cur acc =
        (.ok (acc ++ (List.range remaining).map fun i => A (cur + i)), c') ∧
      CacheInv c' A ∧ c'.page_size = c.page_size ∧ c'.capacity = c.capacity ∧
      c'.file_size = c.file_size := by
  intro fuel
  induction fuel with
  | zero =>
    intro c remaining cur acc hInv hfuel hbound
    have h0 : remaining = 0 := by omega
    subst h0
    rw [readChunks]
    simp only [if_pos rfl]
    exact ⟨c, by simp, hInv, rfl, rfl, rfl⟩
  | succ fuel ih =>
    intro c remaining cur acc hInv hfuel hbound
    by_cases h0 : remaining = 0
    · subst h0
      rw [readChunks]
      simp only [if_pos rfl]
      exact ⟨c, by simp, hInv, rfl, rfl, rfl⟩
    · have hps := hInv.ps_pos
      have hpsne : c.page_size ≠ 0 := by omega
      have hoff : cur % c.page_size < c.page_size := Nat.mod_lt _ hps
      have hcur : c.page_size * (cur / c.page_size) + cur % c.page_size = cur :=
        Nat.div_add_mod cur c.page_size
      have hcur' : (cur / c.page_size) * c.page_size + cur % c.page_size = cur := by
        rw [Nat.mul_comm] at hcur
        exact hcur
      have hin : (cur / c.page_size + 1) * c.page_size ≤ c.file_size := by
        by_contra hc
        push_neg at hc
        have := @aligned_oob c.page_size c.file_size (cur / c.page_size) hps hInv.ps_dvd hc
        omega
      obtain ⟨d, cA, hrp, hdlen, hdval, hInvA, hpsA, hcapA, _, _, hfsA, _⟩ :=
        @read_page_ok_of_inrange noFault _ _ _ hInv rfl hin
      have hpe : (cur / c.page_size + 1) * c.page_size =
          (cur / c.page_size) * c.page_size + c.page_size := by ring
      have hrs1 : 1 ≤ min remaining (c.page_size - cur % c.page_size) := by omega
      have hrsr : min remaining (c.page_size - cur % c.page_size) ≤ remaining := by
        omega
      have hchunk : (d.drop (cur % c.page_size)).take
            (min remaining (c.page_size - cur % c.page_size)) =
          (List.range (min remaining (c.page_size - cur % c.page_size))).map
            fun i => A (cur + i) :=
        chunk_eq hdlen hdval (by omega) hcur'
      obtain ⟨cF, hrec, hInvF, hpsF, hcapF, hfsF⟩ :=
        ih cA (remaining - min remaining (c.page_size - cur % c.page_size))
          (cur + min remaining (c.page_size - cur % c.page_size))
          (acc ++ (d.drop (cur % c.page_size)).take
            (min remaining (c.page_size - cur % c.page_size)))
          hInvA (by omega) (by omega)
      refine ⟨cF, ?_, hInvF, by omega, by omega, by omega⟩
      rw [readChunks_step h0 hpsne, hrp]
      dsimp only
      rw [wrap_eq_of_lt (by
        have := hInv.fs_lt
        omega)]
      rw [hrec, hchunk]
      rw [map_range_split (f := fun i => A (cur + i)) hrsr, ← List.append_assoc]
      have hfe : (fun i =>
            A (cur + remaining ⊓ (c.page_size - cur % c.page_size) + i)) =
          fun i => A (cur + (remaining ⊓ (c.page_size - cur % c.page_size) + i)) := by
        funext i
        congr 1
        omega
      rw [hfe]

/-- Characterisation of any successful read (in any environment): whatever
the cache residency and fault pattern, bytes returned by a read that
reports success are exactly the abstract bytes of the requested range. -/
lemma readChunks_okOut {env : Env} {A : Nat → Nat} :
    ∀ (fuel : Nat) (c : WriteThroughCache) (remaining cur : Nat)
      (acc out : List Nat) (c'' : WriteThroughCache),
    CacheInv c A →
    cur + remaining + c.page_size ≤ U64 →
    readChunks env fuel c remaining cur acc = (.ok out, c'') →
    out = acc ++ (List.range remaining).map fun i => A (cur + i) := by
  intro fuel
  induction fuel with
  | zero =>
    intro c remaining cur acc out c'' hInv hbound hres
    rw [readChunks] at hres
    by_cases h0 : remaining = 0
    · subst h0
      simp at hres
      simp [hres.1]
    · simp only [if_neg h0] at hres
      simp at hres
  | succ fuel ih =>
    intro c remaining cur acc out c'' hInv hbound hres
    by_cases h0 : remaining = 0
    · subst h0
      rw [readChunks] at hres
      simp at hres
      simp [hres.1]
    · have hps := hInv.ps_pos
      have hpsne : c.page_size ≠ 0 := by omega
      have hoff : cur % c.page_size < c.page_size := Nat.mod_lt _ hps
      have hcur : c.page_size * (cur / c.page_size) + cur % c.page_size = cur :=
        Nat.div_add_mod cur c.page_size
      have hcur' : (cur / c.page_size) * c.page_size + cur % c.page_size = cur := by
        rw [Nat.mul_comm] at hcur
        exact hcur
      have hpe : (cur / c.page_size + 1) * c.page_size =
          (cur / c.page_size) * c.page_size + c.page_size := by ring
      have hnw : (cur / c.page_size + 1) * c.page_size < U64 := by omega
      rw [readChunks_step h0 hpsne] at hres
      rcases hrp : read_page env c (cur / c.page_size) with ⟨res, c1⟩
      rw [hrp] at hres
      cases res with
      | error e => simp at hres
      | ok d =>
        dsimp only at hres
        obtain ⟨hdlen, hdval, hInv1, hps1, hcap1, _, _, _⟩ :=
          read_page_ok_inv hInv hnw hrp
        have hrsr : min remaining (c.page_size - cur % c.page_size) ≤ remaining := by
          omega
        have hwr : wrap (cur + min remaining (c.page_size - cur % c.page_size)) =
            cur + min remaining (c.page_size - cur % c.page_size) :=
          wrap_eq_of_lt (by omega)
        rw [hwr] at hres
        have hout := ih c1 (remaining - min remaining (c.page_size - cur % c.page_size))
          (cur + min remaining (c.page_size - cur % c.page_size))
          (acc ++ (d.drop (cur % c.page_size)).take
            (min remaining (c.page_size - cur % c.page_size)))
          out c'' hInv1 (by rw [hps1]; omega) hres
        rw [hout,
          chunk_eq hdlen hdval (by omega) hcur',
          map_range_split (f := fun i => A (cur + i)) hrsr, ← List.append_assoc]
        have hfe : (fun i =>
              A (cur + remaining ⊓ (c.page_size - cur % c.page_size) + i)) =
            fun i => A (cur + (remaining ⊓ (c.page_size - cur % c.page_size) + i)) := by
          funext i
          congr 1
          omega
        rw [hfe]

/-- Fault-free `write`: from any invariant state with no `u64` overflow in
range, the public write succeeds and the new state simulates the abstract
store with the written range overwritten; the logical length grows to cover
the written range. -/
lemma write_ok {c : WriteThroughCache} {A : Nat → Nat} {addr : Nat}
    {data : List Nat} (hInv : CacheInv c A)
    (hbound : addr + data.length + c.page_size ≤ U64) :
    ∃ c', write noFault c addr data = (.ok (), c') ∧
      CacheInv c' (overwrite A addr data) ∧
      c'.page_size = c.page_size ∧ c'.capacity = c.capacity ∧
      c.file_size ≤ c'.file_size ∧
      (data ≠ [] → addr + data.length ≤ c'.file_size) := by
  obtain ⟨c', h1, h2, h3, h4, h5, h6⟩ :=
    writeChunks_ok data.length c A data.length addr hInv (le_refl _)
      (le_refl _) hbound
  rw [Nat.sub_self, List.drop_zero] at h2
  refine ⟨c', h1, h2, h3, h4, h5, ?_⟩
  intro hne
  exact h6 (by
    cases data with
    | nil => exact absurd rfl hne
    | cons a l => simp)

lemma runWrites_cons {env : Env} {c : WriteThroughCache} {a : Nat}
    {d : List Nat} {ws : List (Nat × List Nat)} :
    runWrites env c ((a, d) :: ws) =
      match write env c a d with
      | (.ok _, c') => runWrites env c' ws
      | (.error e, c') => (.error e, c') := rfl

/-- Fault-free execution of a list of writes from an invariant state:
every write succeeds and the final state simulates the abstract store with
all the writes applied in order; each non-empty written range ends up
within the final logical length. -/
lemma runWrites_ok {ws : List (Nat × List Nat)} :
    ∀ (c : WriteThroughCache) (A : Nat → Nat),
    CacheInv c A →
    (∀ w ∈ ws, w.1 + w.2.length + c.page_size ≤ U64) →
    ∃ c', runWrites noFault c ws = (.ok (), c') ∧
      CacheInv c' (ws.foldl (fun B w => overwrite B w.1 w.2) A) ∧
      c'.page_size = c.page_size ∧ c'.capacity = c.capacity ∧
      c.file_size ≤ c'.file_size ∧
      (∀ w ∈ ws, w.2 ≠ [] → w.1 + w.2.length ≤ c'.file_size) := by
  induction ws with
  | nil =>
    intro c A hInv _
    exact ⟨c, rfl, hInv, rfl, rfl, le_refl _, by simp⟩
  | cons w ws ih =>
    intro c A hInv hbound
    obtain ⟨c1, hw, hInv1, hps1, hcap1, hfs1, hcov1⟩ :=
      @write_ok c A w.1 w.2 hInv (hbound w (by simp))
    obtain ⟨c', hrun, hInv', hps', hcap', hfs', hcov'⟩ :=
      ih c1 (overwrite A w.1 w.2) hInv1 (by
        intro v hv
        rw [hps1]
        exact hbound v (List.mem_cons_of_mem _ hv))
    refine ⟨c', ?_, ?_, by omega, by omega, by omega, ?_⟩
    · rcases w with ⟨a, d⟩
      rw [runWrites_cons]
      dsimp only at hw
      rw [hw]
      dsimp only
      exact hrun
    · simpa using hInv'
    · intro v hv hne
      rcases List.mem_cons.mp hv with rfl | hv'
      · have := hcov1 hne
        omega
      · exact hcov' v hv' hne

/-! ## Abstract-store facts for sequences of writes -/

/-- Two writes touch disjoint byte ranges. -/
def wDisjoint (w1 w2 : Nat × List Nat) : Prop :=
  w1.1 + w1.2.length ≤ w2.1 ∨ w2.1 + w2.2.length ≤ w1.1

lemma foldl_overwrite_outside {ws : List (Nat × List Nat)} {i : Nat} :
    ∀ A : Nat → Nat, (∀ w ∈ ws, ¬ (w.1 ≤ i ∧ i < w.1 + w.2.length)) →
    ws.foldl (fun B w => overwrite B w.1 w.2) A i = A i := by
  induction ws with
  | nil => intro A _; rfl
  | cons v ws ih =>
    intro A h
    rw [List.foldl_cons, ih _ (fun w hw => h w (List.mem_cons_of_mem _ hw)),
      overwrite_outside (h v (by simp))]

lemma foldl_overwrite_mem {ws : List (Nat × List Nat)} :
    ∀ A : Nat → Nat, ws.Pairwise wDisjoint →
    ∀ w ∈ ws, ∀ j, j < w.2.length →
    ws.foldl (fun B v => overwrite B v.1 v.2) A (w.1 + j) = w.2.getD j 0 := by
  induction ws with
  | nil => simp
  | cons v ws ih =>
    intro A hpw w hw j hj
    rw [List.foldl_cons]
    rcases List.mem_cons.mp hw with rfl | hw'
    · rw [foldl_overwrite_outside _ (fun u hu => by
        have hd := (List.pairwise_cons.mp hpw).1 u hu
        unfold wDisjoint at hd
        omega)]
      exact overwrite_inside hj
    · exact ih _ (List.pairwise_cons.mp hpw).2 w hw' j hj

lemma map_range_getD (d : List Nat) :
    (List.range d.length).map (fun i => d.getD i 0) = d := by
  apply List.ext_getElem
  · simp
  · intro i h1 h2
    simp only [List.getElem_map, List.getElem_range]
    exact List.getD_eq_getElem d 0 h2

/-! ## Construction facts -/

lemma new_valid {f : Nat → Nat} {fileLen ps cap : Nat}
    (h1 : MIN_PAGE_SIZE ≤ ps) (h2 : ps ≤ MAX_PAGE_SIZE)
    (h3 : MIN_CAPACITY ≤ cap) (h4 : cap ≤ MAX_CAPACITY) :
    new false f fileLen (some ps) (some cap) =
      (.ok { page_size := ps, capacity := cap, cache := [], usage_order := [],
             file := f, file_len := fileLen, file_size := fileLen }, true) := by
  unfold new
  simp only [Bool.false_eq_true, if_false, Option.getD_some]
  rw [if_neg (by omega), if_neg (by omega)]

lemma freshC_inv {ps cap : Nat} (hps : 0 < ps) :
    CacheInv (freshC ps cap) (fun _ => 0) :=
  { ps_pos := hps, ps_dvd := Dvd.intro 0 rfl, fs_lt := by norm_num [freshC, U64],
    len_eq := rfl, file_eq := fun _ => rfl, beyond := fun _ _ => rfl,
    cached := by simp [freshC] }

/-! ## Claim C1 -/

/-- **C1** (write-then-read round trip): over a freshly constructed cache
with any valid configuration, for every sequence of writes to pairwise
non-overlapping byte ranges (each placed so that no `u64` arithmetic
overflows, i.e. `address + length + page_size ≤ 2^64`), all the writes
succeed, and a subsequent `read` of any one of the written ranges succeeds
and returns exactly the bytes that were written there. -/
theorem C1_write_read_roundtrip
    (ps cap : Nat) (ws : List (Nat × List Nat)) (ak : Nat) (dk : List Nat)
    (hps1 : MIN_PAGE_SIZE ≤ ps) (hps2 : ps ≤ MAX_PAGE_SIZE)
    (hcap1 : MIN_CAPACITY ≤ cap) (hcap2 : cap ≤ MAX_CAPACITY)
    (hbound : ∀ w ∈ ws, w.1 + w.2.length + ps ≤ U64)
    (hdisj : ws.Pairwise wDisjoint)
    (hmem : (ak, dk) ∈ ws) :
    ∃ c0 c1 c2,
      (new false (fun _ => 0) 0 (some ps) (some cap)).1 = .ok c0 ∧
      runWrites noFault c0 ws = (.ok (), c1) ∧
      read noFault c1 ak dk.length = (.ok dk, c2) := by
  have hpspos : 0 < ps := lt_of_lt_of_le (by norm_num [MIN_PAGE_SIZE]) hps1
  obtain ⟨c1, hrun, hInv1, hps1', hcap1', _, hcov⟩ :=
    @runWrites_ok ws (freshC ps cap) (fun _ => 0) (freshC_inv hpspos)
      (by intro w hw; exact hbound w hw)
  have hread : ∃ c2, read noFault c1 ak dk.length = (.ok dk, c2) := by
    by_cases hdk : dk = []
    · subst hdk
      exact ⟨c1, rfl⟩
    · have hcov' : ak + dk.length ≤ c1.file_size :=
        hcov (ak, dk) hmem hdk
      obtain ⟨c2, hread, _, _, _, _⟩ :=
        readChunks_ok dk.length c1 dk.length ak [] hInv1 (le_refl _) hcov'
      refine ⟨c2, ?_⟩
      show readChunks noFault dk.length c1 dk.length ak [] = _
      rw [hread]
      have hvals : ((List.range dk.length).map fun i =>
          (ws.foldl (fun B w => overwrite B w.1 w.2) (fun _ => 0)) (ak + i)) = dk := by
        rw [List.map_congr_left (fun i hi =>
          foldl_overwrite_mem _ hdisj (ak, dk) hmem i (List.mem_range.mp hi))]
        exact map_range_getD dk
      rw [List.nil_append, hvals]
  obtain ⟨c2, hread⟩ := hread
  exact ⟨freshC ps cap, c1, c2, by rw [new_valid hps1 hps2 hcap1 hcap2]; rfl, hrun,
    hread⟩

/-- Witness for C1 at a concrete instance: one 1-byte write at address 0 on
a 512-byte-page cache, then a read of that range. -/
theorem C1_witness :
    ∃ c0 c1 c2,
      (new false (fun _ => 0) 0 (some 512) (some 512)).1 = .ok c0 ∧
      runWrites noFault c0 [(0, [7])] = (.ok (), c1) ∧
      read noFault c1 0 1 = (.ok [7], c2) :=
  C1_write_read_roundtrip 512 512 [(0, [7])] 0 [7]
    (by norm_num [MIN_PAGE_SIZE]) (by norm_num [MAX_PAGE_SIZE])
    (by norm_num [MIN_CAPACITY, MIN_PAGE_SIZE])
    (by norm_num [MAX_CAPACITY])
    (by intro w hw; simp at hw; simp [hw, U64])
    (by simp) (by simp)

/-! ## Claim C2 -/

/-- **C2** (zero-fill semantics): over a freshly constructed cache with any
valid configuration and any sequence of (overflow-free) writes, every
successful read returns `0` at every position of its range that no prior
write covered — including the unwritten remainder of a partially written
page and unwritten holes of pages written elsewhere. -/
theorem C2_zero_fill
    (ps cap : Nat) (ws : List (Nat × List Nat)) (addr size : Nat)
    (hps1 : MIN_PAGE_SIZE ≤ ps) (hps2 : ps ≤ MAX_PAGE_SIZE)
    (hcap1 : MIN_CAPACITY ≤ cap) (hcap2 : cap ≤ MAX_CAPACITY)
    (hbound : ∀ w ∈ ws, w.1 + w.2.length + ps ≤ U64)
    (hrbound : addr + size + ps ≤ U64) :
    ∃ c0 c1,
      (new false (fun _ => 0) 0 (some ps) (some cap)).1 = .ok c0 ∧
      runWrites noFault c0 ws = (.ok (), c1) ∧
      ∀ out c2, read noFault c1 addr size = (.ok out, c2) →
        ∀ i, i < size →
          (∀ w ∈ ws, ¬ (w.1 ≤ addr + i ∧ addr + i < w.1 + w.2.length)) →
          out.getD i 0 = 0 := by
  have hpspos : 0 < ps := lt_of_lt_of_le (by norm_num [MIN_PAGE_SIZE]) hps1
  obtain ⟨c1, hrun, hInv1, hps1', hcap1', _, _⟩ :=
    @runWrites_ok ws (freshC ps cap) (fun _ => 0) (freshC_inv hpspos)
      (by intro w hw; exact hbound w hw)
  refine ⟨freshC ps cap, c1, ?_, hrun, ?_⟩
  · rw [new_valid hps1 hps2 hcap1 hcap2]
    rfl
  · intro out c2 hres i hi hout
    have hchar := readChunks_okOut size c1 size addr [] out c2 hInv1
      (by rw [hps1']; exact hrbound) hres
    rw [hchar, List.nil_append, getD_map_range hi,
      foldl_overwrite_outside _ (fun w hw => hout w hw)]

/-- Witness for C2 at a concrete instance: after one 1-byte write at
address 0, reading back any range and looking at an unwritten position
yields 0 (hypotheses discharged at `ps = cap = 512`, `ws = [(0, [7])]`,
`addr = 0`, `size = 2`). -/
theorem C2_witness :
    ∃ c0 c1,
      (new false (fun _ => 0) 0 (some 512) (some 512)).1 = .ok c0 ∧
      runWrites noFault c0 [(0, [7])] = (.ok (), c1) ∧
      ∀ out c2, read noFault c1 0 2 = (.ok out, c2) →
        ∀ i, i < 2 →
          (∀ w ∈ [((0 : Nat), [(7 : Nat)])],
            ¬ (w.1 ≤ 0 + i ∧ 0 + i < w.1 + w.2.length)) →
          out.getD i 0 = 0 :=
  C2_zero_fill 512 512 [(0, [7])] 0 2
    (by norm_num [MIN_PAGE_SIZE]) (by norm_num [MAX_PAGE_SIZE])
    (by norm_num [MIN_CAPACITY, MIN_PAGE_SIZE])
    (by norm_num [MAX_CAPACITY])
    (by intro w hw; simp at hw; simp [hw, U64])
    (by norm_num [U64])

/-! ## Key-set facts for the page index -/

lemma keys_mapInsert_of_ne {m : List (Nat × List Nat)} {k q : Nat}
    {v : List Nat} (hne : q ≠ k) (hq : q ∈ m.map Prod.fst) :
    q ∈ (mapInsert m k v).map Prod.fst := by
  obtain ⟨p, hp, rfl⟩ := List.mem_map.mp hq
  apply List.mem_map.mpr
  refine ⟨p, ?_, rfl⟩
  exact List.mem_cons_of_mem _ (List.mem_filter.mpr ⟨hp, by simpa using hne⟩)

lemma keys_mapRemove_of_ne {m : List (Nat × List Nat)} {k q : Nat}
    (hne : q ≠ k) (hq : q ∈ m.map Prod.fst) :
    q ∈ (mapRemove m k).map Prod.fst := by
  obtain ⟨p, hp, rfl⟩ := List.mem_map.mp hq
  exact List.mem_map.mpr ⟨p, List.mem_filter.mpr ⟨hp, by simpa using hne⟩, rfl⟩

lemma evictIfFull_cache_cases (c : WriteThroughCache) :
    (evictIfFull c).cache = c.cache ∨
    (∃ oldest, c.usage_order.head? = some oldest ∧
      (evictIfFull c).cache = mapRemove c.cache oldest) := by
  unfold evictIfFull
  split
  · cases hh : c.usage_order.head? with
    | some oldest =>
      right
      exact ⟨oldest, rfl, rfl⟩
    | none =>
      left
      rfl
  · left
    rfl

/-! ## Claim C3 -/

/-- **C3** (LRU protection and single eviction).  First part: on a cache
with capacity for exactly two 512-byte pages, after write page 0 (A),
write page 1 (B), read page 0 (A), write page 2 (C), page B has been
evicted while A and C are resident — re-reading A protected it.  Second
part: for every state and every insertion via `add_to_cache`, any page
that was resident before and is not resident afterwards is the head of the
recency queue (the least-recently-touched page), so no insertion ever
evicts more than one page, and what it evicts is the LRU page. -/
theorem C3_lru_protection :
    ((new false (fun _ => 0) 0 (some 512) (some 1024)).1 =
        .ok (freshC 512 1024) ∧
     (List.lookup 1 (runOps noFault (freshC 512 1024)
        [Op.wr 0 (List.replicate 512 1), Op.wr 512 (List.replicate 512 2),
         Op.rd 0 1, Op.wr 1024 (List.replicate 512 3)]).cache).isSome = false ∧
     (List.lookup 0 (runOps noFault (freshC 512 1024)
        [Op.wr 0 (List.replicate 512 1), Op.wr 512 (List.replicate 512 2),
         Op.rd 0 1, Op.wr 1024 (List.replicate 512 3)]).cache).isSome = true ∧
     (List.lookup 2 (runOps noFault (freshC 512 1024)
        [Op.wr 0 (List.replicate 512 1), Op.wr 512 (List.replicate 512 2),
         Op.rd 0 1, Op.wr 1024 (List.replicate 512 3)]).cache).isSome = true) ∧
    (∀ (c : WriteThroughCache) (pid q : Nat) (d : List Nat),
      q ∈ c.cache.map Prod.fst →
      q ∉ (add_to_cache c pid d).cache.map Prod.fst →
      c.usage_order.head? = some q) := by
  constructor
  · exact ⟨rfl, by decide, by decide, by decide⟩
  · intro c pid q d hq hnq
    by_cases hqp : q = pid
    · exfalso
      apply hnq
      subst hqp
      unfold add_to_cache
      exact List.mem_map.mpr ⟨(q, d), by simp [mapInsert], rfl⟩
    · have hq_m : q ∉ ((evictIfFull c).cache).map Prod.fst := by
        intro h
        exact hnq (keys_mapInsert_of_ne hqp h)
      rcases evictIfFull_cache_cases c with h | ⟨oldest, hh, h⟩
      · rw [h] at hq_m
        exact absurd hq hq_m
      · rw [h] at hq_m
        by_cases hqo : q = oldest
        · rw [hh, hqo]
        · exact absurd (keys_mapRemove_of_ne hqo hq) hq_m

/-- Witness for the quantified part of C3: a concrete full cache where
inserting a new page evicts exactly the head of the recency queue. -/
theorem C3_witness :
    (WriteThroughCache.mk 1 0 [(0, [])] [0] (fun _ => 0) 0 0).usage_order.head?
      = some 0 :=
  C3_lru_protection.2
    (WriteThroughCache.mk 1 0 [(0, [])] [0] (fun _ => 0) 0 0) 5 0 []
    (by decide) (by decide)

/-! ## Claim C4 -/

/-- Counterexample to C4 as stated: on a fresh empty 512-byte-page store,
the non-empty read at address `u64::MAX` lies entirely beyond
`logical_length` but fails with `IoFailure`, not `OutOfRange` — the bound
computation `(page_id + 1) * page_size` wraps past `2^64` to `0`, the
out-of-range guard is bypassed, and the subsequent positioned read hits
end-of-file. -/
theorem C4_cex_wrap_iofailure :
    (read noFault (freshC 512 512) (U64 - 1) 1).1 = .error .IoFailure ∧
    Err.IoFailure ≠ Err.OutOfRange :=
  ⟨rfl, by decide⟩

/-- **C4** (amended): every read of a non-empty range lying entirely beyond
`logical_length` fails with `OutOfRange` and leaves the state unchanged,
PROVIDED the first page's bound computation does not overflow `u64`
(`(address / page_size + 1) * page_size < 2^64`; for addresses in the last
`page_size` bytes of the `u64` space the computation wraps and the read
fails with `IoFailure` instead, see the counterexample); a read with
`length = 0` always succeeds and returns an empty result, for every
address, without touching the state.  The hypothesis on resident pages
(each lies within `logical_length`) holds in every reachable state. -/
theorem C4_out_of_range_amended
    (env : Env) (c : WriteThroughCache) (addr size : Nat)
    (hps : 0 < c.page_size)
    (hcached : ∀ p ∈ c.cache, (p.1 + 1) * c.page_size ≤ c.file_size)
    (hbeyond : c.file_size ≤ addr) (hsz : 0 < size)
    (hnw : (addr / c.page_size + 1) * c.page_size < U64) :
    read env c addr size = (.error .OutOfRange, c) ∧
    ∀ addr' : Nat, read env c addr' 0 = (.ok [], c) := by
  constructor
  · have hpsne : c.page_size ≠ 0 := by omega
    have hcur : c.page_size * (addr / c.page_size) + addr % c.page_size = addr :=
      Nat.div_add_mod addr c.page_size
    have hoff : addr % c.page_size < c.page_size := Nat.mod_lt _ hps
    have hpe : (addr / c.page_size + 1) * c.page_size =
        c.page_size * (addr / c.page_size) + c.page_size := by ring
    have hlk : List.lookup (addr / c.page_size) c.cache = none := by
      cases hlk : List.lookup (addr / c.page_size) c.cache with
      | none => rfl
      | some d =>
        have := hcached _ (lookup_mem hlk)
        have h2 : (addr / c.page_size + 1) * c.page_size ≤ c.file_size := by
          simpa using this
        omega
    have hrp : read_page env c (addr / c.page_size) = (.error .OutOfRange, c) := by
      apply read_page_oob env hlk
      rw [wrap_eq_of_lt (show addr / c.page_size + 1 < U64 by
            have := Nat.le_mul_of_pos_right (addr / c.page_size + 1) hps
            omega),
          wrap_eq_of_lt hnw]
      omega
    obtain ⟨k, rfl⟩ := Nat.exists_eq_succ_of_ne_zero (by omega : size ≠ 0)
    show readChunks env (k + 1) c (k + 1) addr [] = (.error .OutOfRange, c)
    rw [readChunks_step (by omega) hpsne, hrp]
  · intro addr'
    rfl

/-- Witness for C4 at a concrete instance: a fresh empty store and a read
of one byte at address 1000. -/
theorem C4_witness :
    read noFault (freshC 512 512) 1000 1 = (.error .OutOfRange, freshC 512 512) ∧
    ∀ addr' : Nat, read noFault (freshC 512 512) addr' 0 =
      (.ok [], freshC 512 512) :=
  C4_out_of_range_amended noFault (freshC 512 512) 1000 1 (by decide)
    (by simp [freshC]) (by decide) (by decide) (by decide)

/-! ## Claim C5 -/

/-- A cache freshly opened over a pre-existing 1000-byte backing file
(page size 512): page 1 starts below `logical_length` (512 < 1000) but
ends above it (1024 > 1000) — the partial final page. -/
def partialFileCache : WriteThroughCache :=
  { page_size := 512, capacity := 512, cache := [], usage_order := [],
    file := fun _ => 0, file_len := 1000, file_size := 1000 }

/-- Counterexample to C5 as stated: for the partial final page (start 512
below `logical_length = 1000`, end 1024 above it), `load_page` does NOT
succeed with a zero-padded buffer — it fails with `OutOfRange`.  The
prefix-read/zero-fill branch of `read_page` (src/lib.rs lines 145-150) is
unreachable because the bound check at line 134 fires first. -/
theorem C5_cex_partial_page_rejected :
    (read_page noFault partialFileCache 1).1 = .error .OutOfRange ∧
    partialFileCache.page_size * 1 < partialFileCache.file_size ∧
    partialFileCache.file_size < partialFileCache.page_size * 2 :=
  ⟨rfl, by decide, by decide⟩

/-- **C5** (amended): every page whose end `(page_id + 1) * page_size`
exceeds `logical_length` — even one whose start lies below it — is refused
by `load_page` with `OutOfRange` on a cache miss, with no state change; the
in-range-prefix/zero-fill suffix path is dead code. -/
theorem C5_partial_page_amended
    (env : Env) (c : WriteThroughCache) (pid : Nat)
    (hmiss : List.lookup pid c.cache = none)
    (hstart : pid * c.page_size < c.file_size)
    (hend : wrap (wrap (pid + 1) * c.page_size) > c.file_size) :
    read_page env c pid = (.error .OutOfRange, c) :=
  read_page_oob env hmiss hend

/-- Witness for C5 at the concrete partial-page instance. -/
theorem C5_witness :
    read_page noFault partialFileCache 1 =
      (.error .OutOfRange, partialFileCache) :=
  C5_partial_page_amended noFault partialFileCache 1 rfl (by decide) (by decide)

/-! ## Claim C6 -/

/-- A backing file whose first page holds the byte 7 everywhere. -/
def sevenFile : Nat → Nat := fun i => if i < 512 then 7 else 0

/-- A cache freshly opened over a 512-byte backing file of 7s: page 0 is
entirely in range (`(0 + 1) * 512 ≤ 512`). -/
def inRangeCache : WriteThroughCache :=
  { page_size := 512, capacity := 512, cache := [], usage_order := [],
    file := sevenFile, file_len := 512, file_size := 512 }

/-- An environment in which every positioned read fails with an I/O error
(e.g. a transient device failure), while writes and flushes succeed. -/
def readFaultEnv : Env :=
  { readFails := fun _ => true, writeFails := fun _ => false,
    syncFails := fun _ => false }

/-- **C6** (code bug, evaluated at the failing input): page 0 is entirely
within `logical_length`, and loading it fails with a genuine `IoFailure`
(not the missing-page condition); yet `write(0, [1])` SUCCEEDS — the
`Err(_)` match in the write loop (src/lib.rs line 111) silently swallows
the `IoFailure`, substitutes an all-zero page, and the write then commits
that zero page: byte 1 of the file, which held 7, is destroyed (now 0)
with no error reported.  The spec says an `IoFailure` on an in-range page
load during a write is surfaced to the caller, never silently swallowed. -/
theorem C6_swallowed_io_failure :
    (0 + 1) * inRangeCache.page_size ≤ inRangeCache.file_size ∧
    (read_page readFaultEnv inRangeCache 0).1 = .error .IoFailure ∧
    (write readFaultEnv inRangeCache 0 [1]).1 = .ok () ∧
    inRangeCache.file 1 = 7 ∧
    (write readFaultEnv inRangeCache 0 [1]).2.file 1 = 0 :=
  ⟨by decide, rfl, rfl, rfl, rfl⟩

/-! ## Claim C7 -/

/-- **C7** (write failure atomicity): for every page write in which the
positioned write or the durability flush fails, `store_page` returns
`IoFailure` and the cache state for that page is not mutated — the Page
Index and the recency queue are exactly as before, and `logical_length`
(`file_size`) is unchanged. -/
theorem C7_write_failure_atomicity
    (env : Env) (c : WriteThroughCache) (pid : Nat) (data : List Nat)
    (hlen : data.length = c.page_size)
    (hfail : env.writeFails pid = true ∨ env.syncFails pid = true) :
    (write_page env c pid data).1 = .error .IoFailure ∧
    (write_page env c pid data).2.cache = c.cache ∧
    (write_page env c pid data).2.usage_order = c.usage_order ∧
    (write_page env c pid data).2.file_size = c.file_size := by
  cases hwf : env.writeFails pid with
  | true =>
    rw [write_page_wfail hlen hwf]
    exact ⟨rfl, rfl, rfl, rfl⟩
  | false =>
    have hsf : env.syncFails pid = true := by
      rcases hfail with h | h
      · rw [h] at hwf
        exact absurd hwf (by simp)
      · exact h
    rw [write_page_sfail hlen hwf hsf]
    exact ⟨rfl, rfl, rfl, rfl⟩

/-- An environment in which every durability flush fails. -/
def syncFaultEnv : Env :=
  { readFails := fun _ => false, writeFails := fun _ => false,
    syncFails := fun _ => true }

/-- Witness for C7 at a concrete instance: a full-page write whose flush
fails leaves the page index, recency queue and logical length untouched. -/
theorem C7_witness :
    (write_page syncFaultEnv (freshC 512 512) 0 (List.replicate 512 9)).1 =
      .error .IoFailure ∧
    (write_page syncFaultEnv (freshC 512 512) 0
      (List.replicate 512 9)).2.cache = (freshC 512 512).cache ∧
    (write_page syncFaultEnv (freshC 512 512) 0
      (List.replicate 512 9)).2.usage_order = (freshC 512 512).usage_order ∧
    (write_page syncFaultEnv (freshC 512 512) 0
      (List.replicate 512 9)).2.file_size = (freshC 512 512).file_size :=
  C7_write_failure_atomicity syncFaultEnv (freshC 512 512) 0
    (List.replicate 512 9) (by decide) (.inr rfl)

/-! ## Structural invariant for the capacity bound (claim C8) -/

lemma lookup_none_not_key {m : List (Nat × List Nat)} {k : Nat}
    (h : List.lookup k m = none) : k ∉ m.map Prod.fst := by
  intro hk
  obtain ⟨p, hp, hEq⟩ := List.mem_map.mp hk
  exact lookup_none_not_mem (v := p.2) h (by
    have : p = (k, p.2) := by
      cases p
      simp_all
    exact this ▸ hp)

lemma lookup_some_key {m : List (Nat × List Nat)} {k : Nat}
    (h : (List.lookup k m).isSome = true) : k ∈ m.map Prod.fst := by
  cases hlk : List.lookup k m with
  | none => rw [hlk] at h; simp at h
  | some v => exact List.mem_map.mpr ⟨(k, v), lookup_mem hlk, rfl⟩

lemma filter_ne_of_not_key {m : List (Nat × List Nat)} {k : Nat}
    (h : k ∉ m.map Prod.fst) : m.filter (fun p => p.1 != k) = m := by
  apply List.filter_eq_self.mpr
  intro p hp
  simp only [bne_iff_ne, ne_eq, decide_eq_true_eq]
  intro hEq
  exact h (List.mem_map.mpr ⟨p, hp, hEq⟩)

lemma length_mapRemove_of_mem {m : List (Nat × List Nat)} {k : Nat}
    (hnd : (m.map Prod.fst).Nodup) (hk : k ∈ m.map Prod.fst) :
    (mapRemove m k).length + 1 = m.length := by
  induction m with
  | nil => simp at hk
  | cons p m ih =>
    simp only [List.map_cons, List.nodup_cons] at hnd
    unfold mapRemove
    rw [List.filter_cons]
    by_cases hpk : p.1 = k
    · rw [show (p.1 != k) = false by simp [hpk]]
      simp only [if_false, Bool.false_eq_true]
      have : m.filter (fun q => q.1 != k) = m := by
        apply filter_ne_of_not_key
        rw [← hpk]
        exact hnd.1
      rw [this]
      simp
    · rw [show (p.1 != k) = true by simp [hpk]]
      simp only [if_true, List.length_cons]
      have hk' : k ∈ m.map Prod.fst := by
        rcases List.mem_cons.mp hk with h | h
        · exact absurd h.symm hpk
        · exact h
      have := ih hnd.2 hk'
      unfold mapRemove at this
      omega

lemma length_mapInsert_of_not_key {m : List (Nat × List Nat)} {k : Nat}
    {v : List Nat} (h : k ∉ m.map Prod.fst) :
    (mapInsert m k v).length = m.length + 1 := by
  unfold mapInsert
  rw [filter_ne_of_not_key h]
  simp

lemma length_mapInsert_of_key {m : List (Nat × List Nat)} {k : Nat}
    {v : List Nat} (hnd : (m.map Prod.fst).Nodup) (h : k ∈ m.map Prod.fst) :
    (mapInsert m k v).length = m.length := by
  have := length_mapRemove_of_mem hnd h
  unfold mapRemove at this
  unfold mapInsert
  simp only [List.length_cons]
  omega

lemma keys_mapInsert_iff {m : List (Nat × List Nat)} {k q : Nat}
    {v : List Nat} :
    q ∈ (mapInsert m k v).map Prod.fst ↔ q = k ∨ q ∈ m.map Prod.fst := by
  constructor
  · intro h
    rcases List.mem_map.mp h with ⟨p, hp, rfl⟩
    rcases List.mem_cons.mp hp with rfl | hp'
    · exact .inl rfl
    · exact .inr (List.mem_map.mpr ⟨p, List.mem_of_mem_filter hp', rfl⟩)
  · rintro (rfl | h)
    · exact List.mem_map.mpr ⟨(q, v), by simp [mapInsert], rfl⟩
    · by_cases hq : q = k
      · exact List.mem_map.mpr ⟨(k, v), by simp [mapInsert], hq.symm⟩
      · exact keys_mapInsert_of_ne hq h

lemma keys_mapRemove_iff {m : List (Nat × List Nat)} {k q : Nat} :
    q ∈ (mapRemove m k).map Prod.fst ↔ q ≠ k ∧ q ∈ m.map Prod.fst := by
  constructor
  · intro h
    rcases List.mem_map.mp h with ⟨p, hp, rfl⟩
    obtain ⟨hm, hne⟩ := List.mem_filter.mp hp
    exact ⟨by simpa using hne, List.mem_map.mpr ⟨p, hm, rfl⟩⟩
  · rintro ⟨hne, h⟩
    exact keys_mapRemove_of_ne hne h

lemma nodup_keys_mapInsert {m : List (Nat × List Nat)} {k : Nat}
    {v : List Nat} (hnd : (m.map Prod.fst).Nodup) :
    ((mapInsert m k v).map Prod.fst).Nodup := by
  unfold mapInsert
  simp only [List.map_cons, List.nodup_cons]
  constructor
  · intro h
    rcases List.mem_map.mp h with ⟨p, hp, hEq⟩
    have := (List.mem_filter.mp hp).2
    rw [hEq] at this
    simp at this
  · exact List.Nodup.sublist (List.Sublist.map _ (List.filter_sublist _)) hnd

lemma nodup_keys_mapRemove {m : List (Nat × List Nat)} {k : Nat}
    (hnd : (m.map Prod.fst).Nodup) :
    ((mapRemove m k).map Prod.fst).Nodup :=
  List.Nodup.sublist (List.Sublist.map _ (List.filter_sublist _)) hnd

/-- Structural invariant of the page index and recency queue: keys are
unique, the recency queue holds exactly the resident page ids, the
capacity is positive, and the resident set satisfies the (corrected)
capacity bound `|resident| * page_size < capacity + page_size`. -/
def SInv (c : WriteThroughCache) : Prop :=
  (c.cache.map Prod.fst).Nodup ∧ c.usage_order.Nodup ∧
  (∀ q, q ∈ c.usage_order ↔ q ∈ c.cache.map Prod.fst) ∧
  0 < c.capacity ∧
  c.cache.length * c.page_size < c.capacity + c.page_size

lemma SInv_promote {c : WriteThroughCache} {pid : Nat} (h : SInv c)
    (hpid : pid ∈ c.cache.map Prod.fst) : SInv (promote c pid) := by
  obtain ⟨h1, h2, h3, h4, h5⟩ := h
  refine ⟨h1, ?_, ?_, h4, h5⟩
  · apply List.Nodup.append (h2.filter _) (by simp)
    intro a ha hb
    simp only [List.mem_singleton] at hb
    subst hb
    have := (List.mem_filter.mp ha).2
    simp at this
  · intro q
    show q ∈ c.usage_order.filter (fun x => x != pid) ++ [pid] ↔ _
    simp only [List.mem_append, List.mem_filter, List.mem_singleton,
      bne_iff_ne, ne_eq, decide_eq_true_eq]
    constructor
    · rintro (⟨hq, _⟩ | rfl)
      · exact (h3 q).mp hq
      · exact hpid
    · intro hq
      by_cases hqp : q = pid
      · exact .inr hqp
      · exact .inl ⟨(h3 q).mpr hq, hqp⟩

lemma SInv_add_to_cache {c : WriteThroughCache} {pid : Nat} {d : List Nat}
    (h : SInv c) (hpid : pid ∉ c.cache.map Prod.fst) :
    SInv (add_to_cache c pid d) := by
  obtain ⟨h1, h2, h3, h4, h5⟩ := h
  have hpu : pid ∉ c.usage_order := fun hc => hpid ((h3 pid).mp hc)
  unfold add_to_cache
  by_cases hfull : c.cache.length * c.page_size ≥ c.capacity
  · have hne : c.cache.length ≠ 0 := by
      intro h0
      rw [h0] at hfull
      simp at hfull
      omega
    have hpos : 0 < c.cache.length := by omega
    obtain ⟨p, hp⟩ := List.exists_mem_of_length_pos hpos
    have hq : p.1 ∈ c.usage_order := (h3 _).mpr (List.mem_map.mpr ⟨p, hp, rfl⟩)
    cases hu : c.usage_order with
    | nil =>
      rw [hu] at hq
      simp at hq
    | cons a t =>
      have hev : evictIfFull c =
          { c with cache := mapRemove c.cache a, usage_order := t } := by
        unfold evictIfFull
        rw [if_pos hfull, hu]
        rfl
      rw [hev]
      have hak : a ∈ c.cache.map Prod.fst := (h3 a).mp (by rw [hu]; simp)
      have ht : t.Nodup ∧ a ∉ t := by
        rw [hu] at h2
        exact ⟨(List.nodup_cons.mp h2).2, (List.nodup_cons.mp h2).1⟩
      have hpt : pid ∉ t := fun hc => hpu (by rw [hu]; simp [hc])
      refine ⟨nodup_keys_mapInsert (nodup_keys_mapRemove h1), ?_, ?_, h4, ?_⟩
      · apply List.Nodup.append ht.1 (by simp)
        intro x hx hy
        simp only [List.mem_singleton] at hy
        subst hy
        exact hpt hx
      · intro q
        show q ∈ t ++ [pid] ↔ _
        simp only [List.mem_append, List.mem_singleton]
        rw [keys_mapInsert_iff, keys_mapRemove_iff]
        constructor
        · rintro (hq | rfl)
          · right
            refine ⟨?_, (h3 q).mp (by rw [hu]; simp [hq])⟩
            intro hqa
            subst hqa
            exact ht.2 hq
          · exact .inl rfl
        · rintro (rfl | ⟨hqa, hq⟩)
          · exact .inr rfl
          · left
            have := (h3 q).mpr hq
            rw [hu] at this
            rcases List.mem_cons.mp this with rfl | hq'
            · exact absurd rfl hqa
            · exact hq'
      · have hlrm := length_mapRemove_of_mem h1 hak
        unfold mapRemove at hlrm
        have hpid' : pid ∉ (mapRemove c.cache a).map Prod.fst := by
          rw [keys_mapRemove_iff]
          rintro ⟨_, hc⟩
          exact hpid hc
        have hli := length_mapInsert_of_not_key (v := d) hpid'
        unfold mapRemove at hpid' hli
        show (mapInsert (c.cache.filter _) pid d).length * c.page_size <
          c.capacity + c.page_size
        rw [hli]
        have : (c.cache.filter (fun p => p.1 != a)).length + 1 = c.cache.length :=
          hlrm
        rw [show (c.cache.filter (fun p => p.1 != a)).length + 1 =
          c.cache.length from hlrm]
        exact h5
  · have hev : evictIfFull c = c := by
      unfold evictIfFull
      rw [if_neg hfull]
    rw [hev]
    refine ⟨nodup_keys_mapInsert h1, ?_, ?_, h4, ?_⟩
    · apply List.Nodup.append h2 (by simp)
      intro x hx hy
      simp only [List.mem_singleton] at hy
      subst hy
      exact hpu hx
    · intro q
      show q ∈ c.usage_order ++ [pid] ↔ _
      simp only [List.mem_append, List.mem_singleton]
      rw [keys_mapInsert_iff]
      constructor
      · rintro (hq | rfl)
        · exact .inr ((h3 q).mp hq)
        · exact .inl rfl
      · rintro (rfl | hq)
        · exact .inr rfl
        · exact .inl ((h3 q).mpr hq)
    · show (mapInsert c.cache pid d).length * c.page_size <
        c.capacity + c.page_size
      rw [length_mapInsert_of_not_key hpid]
      have : (c.cache.length + 1) * c.page_size =
          c.cache.length * c.page_size + c.page_size := by ring
      omega

lemma SInv_cfg_read_page (env : Env) (c : WriteThroughCache) (pid : Nat)
    (h : SInv c) :
    SInv (read_page env c pid).2 ∧
    ((read_page env c pid).2).page_size = c.page_size ∧
    ((read_page env c pid).2).capacity = c.capacity := by
  cases hlk : List.lookup pid c.cache with
  | some d =>
    rw [read_page_hit env hlk]
    exact ⟨SInv_promote h (List.mem_map.mpr ⟨(pid, d), lookup_mem hlk, rfl⟩),
      rfl, rfl⟩
  | none =>
    by_cases h2 : wrap (wrap (pid + 1) * c.page_size) > c.file_size
    · rw [read_page_oob env hlk h2]
      exact ⟨h, rfl, rfl⟩
    · cases h3 : env.readFails pid with
      | true =>
        rw [read_page_readfail hlk h2 h3]
        exact ⟨h, rfl, rfl⟩
      | false =>
        by_cases h4 : c.file_len < wrap (pid * c.page_size) + c.page_size
        · rw [read_page_eof hlk h2 h3 h4]
          exact ⟨h, rfl, rfl⟩
        · rw [read_page_miss_ok hlk h2 h3 h4]
          exact ⟨SInv_add_to_cache h (lookup_none_not_key hlk), by simp, by simp⟩

lemma SInv_cfg_write_page (env : Env) (c : WriteThroughCache) (pid : Nat)
    (data : List Nat) (h : SInv c) :
    SInv (write_page env c pid data).2 ∧
    ((write_page env c pid data).2).page_size = c.page_size ∧
    ((write_page env c pid data).2).capacity = c.capacity := by
  by_cases hl : data.length = c.page_size
  · cases hwf : env.writeFails pid with
    | true =>
      rw [write_page_wfail hl hwf]
      exact ⟨h, rfl, rfl⟩
    | false =>
      cases hsf : env.syncFails pid with
      | true =>
        rw [write_page_sfail hl hwf hsf]
        exact ⟨h, rfl, rfl⟩
      | false =>
        cases hlk : (List.lookup pid c.cache).isSome with
        | true =>
          rw [write_page_ok_present hl hwf hsf hlk]
          have hk := lookup_some_key hlk
          obtain ⟨h1, h2, h3, h4, h5⟩ := h
          refine ⟨SInv_promote ⟨nodup_keys_mapInsert h1, h2, ?_, h4, ?_⟩
            (by rw [keys_mapInsert_iff]; exact .inl rfl), rfl, rfl⟩
          · intro q
            show q ∈ c.usage_order ↔ _
            rw [keys_mapInsert_iff]
            constructor
            · intro hq
              exact .inr ((h3 q).mp hq)
            · rintro (rfl | hq)
              · exact (h3 q).mpr hk
              · exact (h3 q).mpr hq
          · show (mapInsert c.cache pid data).length * c.page_size <
              c.capacity + c.page_size
            rw [length_mapInsert_of_key h1 hk]
            exact h5
        | false =>
          rw [write_page_ok_absent hl hwf hsf hlk]
          have hnk : pid ∉ c.cache.map Prod.fst := by
            apply lookup_none_not_key
            cases hlk2 : List.lookup pid c.cache with
            | none => rfl
            | some v =>
              rw [hlk2] at hlk
              simp at hlk
          have hS1 : SInv (add_to_cache
              { c with file := overwrite c.file (wrap (pid * c.page_size)) data,
                       file_len := max c.file_len
                         (wrap (pid * c.page_size) + data.length) } pid data) :=
            SInv_add_to_cache h hnk
          refine ⟨SInv_promote ?_ ?_, by simp, by simp⟩
          · obtain ⟨s1, s2, s3, s4, s5⟩ := hS1
            exact ⟨s1, s2, s3, s4, s5⟩
          · show pid ∈ ((add_to_cache _ pid data).cache).map Prod.fst
            unfold add_to_cache
            rw [keys_mapInsert_iff]
            exact .inl rfl
  · rw [write_page_mismatch hl]
    exact ⟨h, rfl, rfl⟩

lemma SInv_cfg_readChunks (env : Env) :
    ∀ (fuel : Nat) (c : WriteThroughCache) (remaining cur : Nat)
      (acc : List Nat), SInv c →
    SInv (readChunks env fuel c remaining cur acc).2 ∧
    ((readChunks env fuel c remaining cur acc).2).page_size = c.page_size ∧
    ((readChunks env fuel c remaining cur acc).2).capacity = c.capacity := by
  intro fuel
  induction fuel with
  | zero =>
    intro c remaining cur acc h
    rw [readChunks]
    by_cases h0 : remaining = 0
    · simp only [if_pos h0]
      exact ⟨h, by simp, by simp⟩
    · simp only [if_neg h0]
      exact ⟨h, by simp, by simp⟩
  | succ fuel ih =>
    intro c remaining cur acc h
    by_cases h0 : remaining = 0
    · rw [readChunks]
      simp only [if_pos h0]
      exact ⟨h, by simp, by simp⟩
    · by_cases hps : c.page_size = 0
      · rw [readChunks]
        simp only [if_neg h0, if_pos hps]
        exact ⟨h, by simp, by simp⟩
      · rw [readChunks_step h0 hps]
        obtain ⟨hS, hcfg1, hcfg2⟩ :=
          SInv_cfg_read_page env c (cur / c.page_size) h
        rcases hrp : read_page env c (cur / c.page_size) with ⟨res, c1⟩
        rw [hrp] at hS hcfg1 hcfg2
        cases res with
        | error e => exact ⟨hS, hcfg1, hcfg2⟩
        | ok d =>
          dsimp only
          refine ⟨?_, ?_, ?_⟩
          · exact (ih c1 _ _ _ hS).1
          · rw [(ih c1 _ _ _ hS).2.1, hcfg1]
          · rw [(ih c1 _ _ _ hS).2.2, hcfg2]

lemma SInv_cfg_writeChunks (env : Env) :
    ∀ (fuel : Nat) (c : WriteThroughCache) (data : List Nat)
      (remaining cur : Nat), SInv c →
    SInv (writeChunks env fuel c data remaining cur).2 ∧
    ((writeChunks env fuel c data remaining cur).2).page_size = c.page_size ∧
    ((writeChunks env fuel c data remaining cur).2).capacity = c.capacity := by
  intro fuel
  induction fuel with
  | zero =>
    intro c data remaining cur h
    rw [writeChunks]
    by_cases h0 : remaining = 0
    · simp only [if_pos h0]
      exact ⟨h, by simp, by simp⟩
    · simp only [if_neg h0]
      exact ⟨h, by simp, by simp⟩
  | succ fuel ih =>
    intro c data remaining cur h
    by_cases h0 : remaining = 0
    · rw [writeChunks]
      simp only [if_pos h0]
      exact ⟨h, by simp, by simp⟩
    · by_cases hps : c.page_size = 0
      · rw [writeChunks]
        simp only [if_neg h0, if_pos hps]
        exact ⟨h, by simp, by simp⟩
      · rw [writeChunks_step h0 hps]
        obtain ⟨hS1, hcfg1, hcfg2⟩ :=
          SInv_cfg_read_page env c (cur / c.page_size) h
        obtain ⟨hS2, hcfg3, hcfg4⟩ :=
          SInv_cfg_write_page env (read_page env c (cur / c.page_size)).2
            (cur / c.page_size)
            (patchList
              (match (read_page env c (cur / c.page_size)).1 with
               | .ok d => d
               | .error _ => List.replicate c.page_size 0)
              (cur % c.page_size)
              ((data.drop (data.length - remaining)).take
                (min remaining (c.page_size - cur % c.page_size)))) hS1
        rcases hwp : write_page env (read_page env c (cur / c.page_size)).2
            (cur / c.page_size)
            (patchList
              (match (read_page env c (cur / c.page_size)).1 with
               | .ok d => d
               | .error _ => List.replicate c.page_size 0)
              (cur % c.page_size)
              ((data.drop (data.length - remaining)).take
                (min remaining (c.page_size - cur % c.page_size))))
          with ⟨res, c2⟩
        rw [hwp] at hS2 hcfg3 hcfg4
        cases res with
        | error e =>
          exact ⟨hS2, hcfg3.trans hcfg1, hcfg4.trans hcfg2⟩
        | ok u =>
          dsimp only
          refine ⟨?_, ?_, ?_⟩
          · exact (ih c2 data _ _ hS2).1
          · rw [(ih c2 data _ _ hS2).2.1, hcfg3, hcfg1]
          · rw [(ih c2 data _ _ hS2).2.2, hcfg4, hcfg2]

lemma SInv_cfg_runOps (env : Env) :
    ∀ (ops : List Op) (c : WriteThroughCache), SInv c →
    SInv (runOps env c ops) ∧
    (runOps env c ops).page_size = c.page_size ∧
    (runOps env c ops).capacity = c.capacity := by
  intro ops
  induction ops with
  | nil =>
    intro c h
    exact ⟨h, rfl, rfl⟩
  | cons op ops ih =>
    intro c h
    have hstep : SInv (runOp env c op) ∧
        (runOp env c op).page_size = c.page_size ∧
        (runOp env c op).capacity = c.capacity := by
      cases op with
      | rd a s => exact SInv_cfg_readChunks env s c s a [] h
      | wr a d => exact SInv_cfg_writeChunks env d.length c d d.length a h
    obtain ⟨h1, h2, h3⟩ := hstep
    obtain ⟨r1, r2, r3⟩ := ih (runOp env c op) h1
    exact ⟨r1, by rw [show runOps env c (op :: ops) =
        runOps env (runOp env c op) ops from rfl]; omega,
      by rw [show runOps env c (op :: ops) =
        runOps env (runOp env c op) ops from rfl]; omega⟩

/-! ## Claim C8 -/

/-- Counterexample to C8 as stated: with the valid configuration
`page_size = 512`, `capacity = 768` (not a multiple of the page size), two
public writes leave two pages resident: `2 * 512 = 1024 > 768`, violating
`|resident_pages| * page_size ≤ capacity`.  The eviction check
(src/lib.rs line 191) compares `len * page_size ≥ capacity` before
inserting, which for `len = 1` reads `512 ≥ 768` and does not evict. -/
theorem C8_cex_capacity_exceeded :
    (new false (fun _ => 0) 0 (some 512) (some 768)).1 = .ok (freshC 512 768) ∧
    (runOps noFault (freshC 512 768)
        [Op.wr 0 (List.replicate 512 1),
         Op.wr 512 (List.replicate 512 2)]).page_size = 512 ∧
    (runOps noFault (freshC 512 768)
        [Op.wr 0 (List.replicate 512 1),
         Op.wr 512 (List.replicate 512 2)]).capacity = 768 ∧
    (runOps noFault (freshC 512 768)
        [Op.wr 0 (List.replicate 512 1),
         Op.wr 512 (List.replicate 512 2)]).cache.length * 512 > 768 :=
  ⟨rfl, by decide, by decide, by decide⟩

/-- **C8** (amended): for every valid configuration and every sequence of
public read and write operations (under any fault pattern), the resident
set satisfies `|resident_pages| * page_size < capacity + page_size`,
i.e. `|resident_pages| ≤ ⌈capacity / page_size⌉`; when `page_size` divides
`capacity` this gives exactly the originally claimed bound
`|resident_pages| * page_size ≤ capacity`, but for capacities that are not
a multiple of the page size the resident set can exceed `capacity` by up
to one page (see the counterexample). -/
theorem C8_capacity_amended
    (env : Env) (ps cap : Nat) (ops : List Op)
    (hps1 : MIN_PAGE_SIZE ≤ ps) (hps2 : ps ≤ MAX_PAGE_SIZE)
    (hcap1 : MIN_CAPACITY ≤ cap) (hcap2 : cap ≤ MAX_CAPACITY) :
    (runOps env (freshC ps cap) ops).cache.length * ps < cap + ps ∧
    (ps ∣ cap →
      (runOps env (freshC ps cap) ops).cache.length * ps ≤ cap) := by
  have hcappos : 0 < cap := lt_of_lt_of_le (by norm_num [MIN_CAPACITY, MIN_PAGE_SIZE]) hcap1
  have hS0 : SInv (freshC ps cap) := by
    refine ⟨by simp [freshC], by simp [freshC], by simp [freshC], hcappos, ?_⟩
    show 0 * ps < cap + ps
    omega
  obtain ⟨⟨_, _, _, _, hbound⟩, hps', hcap'⟩ :=
    SInv_cfg_runOps env ops (freshC ps cap) hS0
  rw [hps', hcap'] at hbound
  have hb : (runOps env (freshC ps cap) ops).cache.length * ps < cap + ps := by
    exact hbound
  refine ⟨hb, ?_⟩
  intro hdvd
  obtain ⟨k, hk⟩ := hdvd
  by_contra hc
  push_neg at hc
  have hcomm : ps * k = k * ps := Nat.mul_comm ..
  have h1 : k * ps < (runOps env (freshC ps cap) ops).cache.length * ps := by
    omega
  have h2 : k < (runOps env (freshC ps cap) ops).cache.length :=
    Nat.lt_of_mul_lt_mul_right h1
  have h3 : (k + 1) * ps ≤ (runOps env (freshC ps cap) ops).cache.length * ps :=
    Nat.mul_le_mul_right _ (by omega)
  have h4 : (k + 1) * ps = k * ps + ps := by ring
  omega

/-- Witness for C8 (amended) at a concrete instance: the empty operation
sequence on a 512/512 configuration. -/
theorem C8_witness :
    (runOps noFault (freshC 512 512) []).cache.length * 512 < 512 + 512 ∧
    (512 ∣ 512 →
      (runOps noFault (freshC 512 512) []).cache.length * 512 ≤ 512) :=
  C8_capacity_amended noFault 512 512 []
    (by norm_num [MIN_PAGE_SIZE]) (by norm_num [MAX_PAGE_SIZE])
    (by norm_num [MIN_CAPACITY, MIN_PAGE_SIZE]) (by norm_num [MAX_CAPACITY])

/-! ## Claim C9 -/

/-- Counterexample to C9 as stated: constructing with the invalid
configuration `page_size = 0`, `capacity = 0` does fail with
`InvalidConfiguration`, but the second component of `new` records that the
backing-file open (with `create(true)`) and its metadata read were
performed BEFORE validation — exactly mirroring src/lib.rs lines 38-44,
where `File::options().create(true).open(..)?` precedes both bounds
checks.  So the failure does not happen "before any I/O" and the backing
file IS opened/created. -/
theorem C9_cex_open_before_validation :
    (new false (fun _ => 0) 0 (some 0) (some 0)).1 =
      .error .InvalidConfiguration ∧
    (new false (fun _ => 0) 0 (some 0) (some 0)).2 = true :=
  ⟨rfl, rfl⟩

/-- **C9** (amended): for every `page_size` or `capacity` outside the
bounds `[512 B, 1 MiB]` and `[512 B, 1 GiB]` respectively, construction
fails with `InvalidConfiguration` and creates no cache state — but only
after the backing file has been opened (created if absent) and its
metadata read: the file-open I/O precedes validation. -/
theorem C9_fail_closed_amended
    (f : Nat → Nat) (fileLen ps cap : Nat)
    (hbad : ps < MIN_PAGE_SIZE ∨ cap < MIN_CAPACITY ∨
            ps > MAX_PAGE_SIZE ∨ cap > MAX_CAPACITY) :
    (new false f fileLen (some ps) (some cap)).1 =
      .error .InvalidConfiguration ∧
    (new false f fileLen (some ps) (some cap)).2 = true := by
  unfold new
  simp only [Bool.false_eq_true, if_false, Option.getD_some]
  by_cases h1 : ps < MIN_PAGE_SIZE ∨ cap < MIN_CAPACITY
  · rw [if_pos h1]
    exact ⟨rfl, rfl⟩
  · rw [if_neg h1, if_pos (by omega)]
    exact ⟨rfl, rfl⟩

/-- Witness for C9 (amended) at a concrete instance: a 2 MiB page size
(above the 1 MiB maximum) with a valid capacity. -/
theorem C9_witness :
    (new false (fun _ => 0) 0 (some (2 * 1024 * 1024)) (some 512)).1 =
      .error .InvalidConfiguration ∧
    (new false (fun _ => 0) 0 (some (2 * 1024 * 1024)) (some 512)).2 = true :=
  C9_fail_closed_amended (fun _ => 0) 0 (2 * 1024 * 1024) 512
    (by norm_num [MIN_PAGE_SIZE, MIN_CAPACITY, MAX_PAGE_SIZE, MAX_CAPACITY])

/-! ## Exact-arithmetic variants (claim C10)

The following `..NW` definitions are specification-side copies of
`read_page`/`read`/`write_page`/`write` in which every `u64` operation is
computed exactly (no `% 2^64`).  Stating `read = readNW` under a
precondition expresses precisely that the bound computation
`(page_id + 1) * page_size` and the per-chunk address advancement never
overflow `u64` under that precondition; where the equality fails, the
wrapping changed behaviour. -/

/-- `read_page` with exact (non-wrapping) arithmetic. -/
def read_pageNW (env : Env) (c : WriteThroughCache) (page_id : Nat) :
    Except Err (List Nat) × WriteThroughCache :=
  match List.lookup page_id c.cache with
  | some data => (.ok data, promote c page_id)
  | none =>
    if (page_id + 1) * c.page_size > c.file_size then
      (.error .OutOfRange, c)
    else
      let pos := page_id * c.page_size
      let read_size :=
        if (page_id + 1) * c.page_size > c.file_size then
          c.file_size - pos
        else
          c.page_size
      if env.readFails page_id then (.error .IoFailure, c)
      else if c.file_len < pos + read_size then (.error .IoFailure, c)
      else
        let buffer := (List.range c.page_size).map
          (fun j => if j < read_size then c.file (pos + j) else 0)
        (.ok buffer, add_to_cache c page_id buffer)

/-- `write_page` with exact (non-wrapping) arithmetic. -/
def write_pageNW (env : Env) (c : WriteThroughCache) (page_id : Nat)
    (data : List Nat) : Except Err Unit × WriteThroughCache :=
  if data.length ≠ c.page_size then (.error .SizeMismatch, c)
  else
    let pos := page_id * c.page_size
    if env.writeFails page_id then (.error .IoFailure, c)
    else
      let c1 := { c with file := overwrite c.file pos data,
                         file_len := max c.file_len (pos + data.length) }
      if env.syncFails page_id then (.error .IoFailure, c1)
      else
        let c2 :=
          if (List.lookup page_id c1.cache).isSome then
            { c1 with cache := mapInsert c1.cache page_id data }
          else
            add_to_cache c1 page_id data
        let c3 := { c2 with
          file_size := max c2.file_size (pos + data.length) }
        (.ok (), promote c3 page_id)

/-- The `read` loop with exact (non-wrapping) arithmetic. -/
def readChunksNW (env : Env) (fuel : Nat) (c : WriteThroughCache)
    (remaining cur : Nat) (acc : List Nat) :
    Except Err (List Nat) × WriteThroughCache :=
  if remaining = 0 then (.ok acc, c)
  else
    match fuel with
    | 0 => (.error .panicked, c)
    | fuel + 1 =>
      if c.page_size = 0 then (.error .panicked, c)
      else
        let page_id := cur / c.page_size
        let offset := cur % c.page_size
        let read_size := min remaining (c.page_size - offset)
        match read_pageNW env c page_id with
        | (.error e, c') => (.error e, c')
        | (.ok data, c') =>
            readChunksNW env fuel c' (remaining - read_size) (cur + read_size)
              (acc ++ (data.drop offset).take read_size)

/-- `read` with exact (non-wrapping) arithmetic. -/
def readNW (env : Env) (c : WriteThroughCache) (address size : Nat) :
    Except Err (List Nat) × WriteThroughCache :=
  readChunksNW env size c size address []

/-- The `write` loop with exact (non-wrapping) arithmetic. -/
def writeChunksNW (env : Env) (fuel : Nat) (c : WriteThroughCache)
    (data : List Nat) (remaining cur : Nat) :
    Except Err Unit × WriteThroughCache :=
  if remaining = 0 then (.ok (), c)
  else
    match fuel with
    | 0 => (.error .panicked, c)
    | fuel + 1 =>
      if c.page_size = 0 then (.error .panicked, c)
      else
        let page_id := cur / c.page_size
        let offset := cur % c.page_size
        let write_size := min remaining (c.page_size - offset)
        let loaded := read_pageNW env c page_id
        let page_data :=
          match loaded.1 with
          | .ok d => d
          | .error _ => List.replicate c.page_size 0
        let patched := patchList page_data offset
          ((data.drop (data.length - remaining)).take write_size)
        match write_pageNW env loaded.2 page_id patched with
        | (.error e, c'') => (.error e, c'')
        | (.ok _, c'') =>
            writeChunksNW env fuel c'' data (remaining - write_size)
              (cur + write_size)

/-- `write` with exact (non-wrapping) arithmetic. -/
def writeNW (env : Env) (c : WriteThroughCache) (address : Nat)
    (data : List Nat) : Except Err Unit × WriteThroughCache :=
  writeChunksNW env data.length c data data.length address

lemma read_page_cfg (env : Env) (c : WriteThroughCache) (pid : Nat) :
    ((read_page env c pid).2).page_size = c.page_size := by
  cases hlk : List.lookup pid c.cache with
  | some d =>
    rw [read_page_hit env hlk]
    rfl
  | none =>
    by_cases h2 : wrap (wrap (pid + 1) * c.page_size) > c.file_size
    · rw [read_page_oob env hlk h2]
    · cases h3 : env.readFails pid with
      | true => rw [read_page_readfail hlk h2 h3]
      | false =>
        by_cases h4 : c.file_len < wrap (pid * c.page_size) + c.page_size
        · rw [read_page_eof hlk h2 h3 h4]
        · rw [read_page_miss_ok hlk h2 h3 h4]
          simp

lemma write_page_cfg (env : Env) (c : WriteThroughCache) (pid : Nat)
    (data : List Nat) :
    ((write_page env c pid data).2).page_size = c.page_size := by
  by_cases hl : data.length = c.page_size
  · cases hwf : env.writeFails pid with
    | true => rw [write_page_wfail hl hwf]
    | false =>
      cases hsf : env.syncFails pid with
      | true => rw [write_page_sfail hl hwf hsf]
      | false =>
        cases hlk : (List.lookup pid c.cache).isSome with
        | true =>
          rw [write_page_ok_present hl hwf hsf hlk]
          rfl
        | false =>
          rw [write_page_ok_absent hl hwf hsf hlk]
          simp
  · rw [write_page_mismatch hl]

lemma read_page_no_panic (env : Env) (c : WriteThroughCache) (pid : Nat) :
    (read_page env c pid).1 ≠ .error .panicked := by
  cases hlk : List.lookup pid c.cache with
  | some d =>
    rw [read_page_hit env hlk]
    simp
  | none =>
    by_cases h2 : wrap (wrap (pid + 1) * c.page_size) > c.file_size
    · rw [read_page_oob env hlk h2]
      simp
    · cases h3 : env.readFails pid with
      | true =>
        rw [read_page_readfail hlk h2 h3]
        simp
      | false =>
        by_cases h4 : c.file_len < wrap (pid * c.page_size) + c.page_size
        · rw [read_page_eof hlk h2 h3 h4]
          simp
        · rw [read_page_miss_ok hlk h2 h3 h4]
          simp

lemma write_page_no_panic (env : Env) (c : WriteThroughCache) (pid : Nat)
    (data : List Nat) :
    (write_page env c pid data).1 ≠ .error .panicked := by
  by_cases hl : data.length = c.page_size
  · cases hwf : env.writeFails pid with
    | true =>
      rw [write_page_wfail hl hwf]
      simp
    | false =>
      cases hsf : env.syncFails pid with
      | true =>
        rw [write_page_sfail hl hwf hsf]
        simp
      | false =>
        cases hlk : (List.lookup pid c.cache).isSome with
        | true =>
          rw [write_page_ok_present hl hwf hsf hlk]
          simp
        | false =>
          rw [write_page_ok_absent hl hwf hsf hlk]
          simp
  · rw [write_page_mismatch hl]
    simp

/-- For a page whose bound computation stays below `2^64`, the wrapped and
exact versions of `read_page` coincide. -/
lemma read_page_eqNW {env : Env} {c : WriteThroughCache} {pid : Nat}
    (hps : 0 < c.page_size) (hnw : (pid + 1) * c.page_size < U64) :
    read_page env c pid = read_pageNW env c pid := by
  have hw1 : wrap (pid + 1) = pid + 1 := wrap_eq_of_lt (by
    have := Nat.le_mul_of_pos_right (pid + 1) hps
    omega)
  have hw2 : wrap ((pid + 1) * c.page_size) = (pid + 1) * c.page_size :=
    wrap_eq_of_lt hnw
  have hw3 : wrap (pid * c.page_size) = pid * c.page_size := by
    have : pid * c.page_size ≤ (pid + 1) * c.page_size :=
      Nat.mul_le_mul_right _ (by omega)
    exact wrap_eq_of_lt (by omega)
  unfold read_page read_pageNW
  rw [hw1, hw2, hw3]

/-- For a page whose bound computation stays below `2^64`, the wrapped and
exact versions of `write_page` coincide. -/
lemma write_page_eqNW {env : Env} {c : WriteThroughCache} {pid : Nat}
    {data : List Nat} (hnw : (pid + 1) * c.page_size < U64) :
    write_page env c pid data = write_pageNW env c pid data := by
  have hw3 : wrap (pid * c.page_size) = pid * c.page_size := by
    have : pid * c.page_size ≤ (pid + 1) * c.page_size :=
      Nat.mul_le_mul_right _ (by omega)
    exact wrap_eq_of_lt (by omega)
  by_cases hl : data.length = c.page_size
  · have hw4 : wrap (pid * c.page_size + data.length) =
        pid * c.page_size + data.length := by
      apply wrap_eq_of_lt
      have : pid * c.page_size + data.length = (pid + 1) * c.page_size := by
        rw [hl]
        ring
      omega
    unfold write_page write_pageNW
    simp only [hw3, hw4]
  · rw [write_page_mismatch hl]
    unfold write_pageNW
    rw [if_pos hl]

lemma readChunksNW_step {env : Env} {fuel : Nat} {c : WriteThroughCache}
    {remaining cur : Nat} {acc : List Nat} (h0 : remaining ≠ 0)
    (hp : c.page_size ≠ 0) :
    readChunksNW env (fuel + 1) c remaining cur acc =
      match read_pageNW env c (cur / c.page_size) with
      | (.error e, c') => (.error e, c')
      | (.ok data, c') =>
          readChunksNW env fuel c'
            (remaining - min remaining (c.page_size - cur % c.page_size))
            (cur + min remaining (c.page_size - cur % c.page_size))
            (acc ++ (data.drop (cur % c.page_size)).take
              (min remaining (c.page_size - cur % c.page_size))) := by
  rw [readChunksNW]
  simp only [if_neg h0, if_neg hp]

lemma writeChunksNW_step {env : Env} {fuel : Nat} {c : WriteThroughCache}
    {data : List Nat} {remaining cur : Nat} (h0 : remaining ≠ 0)
    (hp : c.page_size ≠ 0) :
    writeChunksNW env (fuel + 1) c data remaining cur =
      match write_pageNW env (read_pageNW env c (cur / c.page_size)).2
        (cur / c.page_size)
        (patchList
          (match (read_pageNW env c (cur / c.page_size)).1 with
           | .ok d => d
           | .error _ => List.replicate c.page_size 0)
          (cur % c.page_size)
          ((data.drop (data.length - remaining)).take
            (min remaining (c.page_size - cur % c.page_size)))) with
      | (.error e, c'') => (.error e, c'')
      | (.ok _, c'') =>
          writeChunksNW env fuel c'' data
            (remaining - min remaining (c.page_size - cur % c.page_size))
            (cur + min remaining (c.page_size - cur % c.page_size)) := by
  rw [writeChunksNW]
  simp only [if_neg h0, if_neg hp]

/-- Under `address + length + page_size ≤ 2^64` the wrapped read loop and
the exact read loop coincide: no `u64` computation overflows. -/
lemma readChunks_eqNW {env : Env} :
    ∀ (fuel : Nat) (c : WriteThroughCache) (remaining cur : Nat)
      (acc : List Nat),
    cur + remaining + c.page_size ≤ U64 →
    readChunks env fuel c remaining cur acc =
      readChunksNW env fuel c remaining cur acc := by
  intro fuel
  induction fuel with
  | zero =>
    intro c remaining cur acc _
    rw [readChunks, readChunksNW]
  | succ fuel ih =>
    intro c remaining cur acc hb
    by_cases h0 : remaining = 0
    · rw [readChunks, readChunksNW]
      simp only [if_pos h0]
    · by_cases hps : c.page_size = 0
      · rw [readChunks, readChunksNW]
        simp only [if_neg h0, if_pos hps]
      · have hps' : 0 < c.page_size := Nat.pos_of_ne_zero hps
        have hcur' : (cur / c.page_size) * c.page_size + cur % c.page_size
            = cur := by
          have := Nat.div_add_mod cur c.page_size
          have h2 := Nat.mul_comm c.page_size (cur / c.page_size)
          omega
        have hoff : cur % c.page_size < c.page_size := Nat.mod_lt _ hps'
        have hpe : (cur / c.page_size + 1) * c.page_size =
            (cur / c.page_size) * c.page_size + c.page_size := by ring
        have hnw : (cur / c.page_size + 1) * c.page_size < U64 := by omega
        rw [readChunks_step h0 hps, readChunksNW_step h0 hps,
          ← read_page_eqNW hps' hnw]
        have hcfg := read_page_cfg env c (cur / c.page_size)
        rcases hrp : read_page env c (cur / c.page_size) with ⟨res, c1⟩
        rw [hrp] at hcfg
        cases res with
        | error e => rfl
        | ok d =>
          dsimp only
          rw [wrap_eq_of_lt (by omega)]
          exact ih c1 _ _ _ (by rw [hcfg]; omega)

/-- Under `address + length + page_size ≤ 2^64` the wrapped write loop and
the exact write loop coincide: no `u64` computation overflows. -/
lemma writeChunks_eqNW {env : Env} :
    ∀ (fuel : Nat) (c : WriteThroughCache) (data : List Nat)
      (remaining cur : Nat),
    cur + remaining + c.page_size ≤ U64 →
    writeChunks env fuel c data remaining cur =
      writeChunksNW env fuel c data remaining cur := by
  intro fuel
  induction fuel with
  | zero =>
    intro c data remaining cur _
    rw [writeChunks, writeChunksNW]
  | succ fuel ih =>
    intro c data remaining cur hb
    by_cases h0 : remaining = 0
    · rw [writeChunks, writeChunksNW]
      simp only [if_pos h0]
    · by_cases hps : c.page_size = 0
      · rw [writeChunks, writeChunksNW]
        simp only [if_neg h0, if_pos hps]
      · have hps' : 0 < c.page_size := Nat.pos_of_ne_zero hps
        have hcur' : (cur / c.page_size) * c.page_size + cur % c.page_size
            = cur := by
          have := Nat.div_add_mod cur c.page_size
          have h2 := Nat.mul_comm c.page_size (cur / c.page_size)
          omega
        have hoff : cur % c.page_size < c.page_size := Nat.mod_lt _ hps'
        have hpe : (cur / c.page_size + 1) * c.page_size =
            (cur / c.page_size) * c.page_size + c.page_size := by ring
        have hnw : (cur / c.page_size + 1) * c.page_size < U64 := by omega
        have hcfg := read_page_cfg env c (cur / c.page_size)
        have hnw2 : (cur / c.page_size + 1) *
            ((read_page env c (cur / c.page_size)).2).page_size < U64 := by
          rw [hcfg]
          exact hnw
        rw [writeChunks_step h0 hps, writeChunksNW_step h0 hps,
          ← read_page_eqNW hps' hnw, ← write_page_eqNW hnw2]
        have hcfg2 := write_page_cfg env (read_page env c (cur / c.page_size)).2
          (cur / c.page_size)
          (patchList
            (match (read_page env c (cur / c.page_size)).1 with
             | .ok d => d
             | .error _ => List.replicate c.page_size 0)
            (cur % c.page_size)
            ((data.drop (data.length - remaining)).take
              (min remaining (c.page_size - cur % c.page_size))))
        rcases hwp : write_page env (read_page env c (cur / c.page_size)).2
            (cur / c.page_size)
            (patchList
              (match (read_page env c (cur / c.page_size)).1 with
               | .ok d => d
               | .error _ => List.replicate c.page_size 0)
              (cur % c.page_size)
              ((data.drop (data.length - remaining)).take
                (min remaining (c.page_size - cur % c.page_size))))
          with ⟨res, c2⟩
        rw [hwp] at hcfg2
        cases res with
        | error e => rfl
        | ok u =>
          dsimp only
          rw [wrap_eq_of_lt (by omega)]
          exact ih c2 data _ _ (by rw [hcfg2, hcfg]; omega)

lemma readChunks_no_panic {env : Env} :
    ∀ (fuel : Nat) (c : WriteThroughCache) (remaining cur : Nat)
      (acc : List Nat), 0 < c.page_size → remaining ≤ fuel →
    (readChunks env fuel c remaining cur acc).1 ≠ .error .panicked := by
  intro fuel
  induction fuel with
  | zero =>
    intro c remaining cur acc _ hf
    have h0 : remaining = 0 := by omega
    rw [readChunks]
    simp [h0]
  | succ fuel ih =>
    intro c remaining cur acc hps hf
    by_cases h0 : remaining = 0
    · rw [readChunks]
      simp [h0]
    · rw [readChunks_step h0 (by omega)]
      have hcfg := read_page_cfg env c (cur / c.page_size)
      have hnp := read_page_no_panic env c (cur / c.page_size)
      rcases hrp : read_page env c (cur / c.page_size) with ⟨res, c1⟩
      rw [hrp] at hcfg hnp
      cases res with
      | error e => exact hnp
      | ok d =>
        dsimp only
        apply ih
        · rw [hcfg]
          exact hps
        · have : 1 ≤ min remaining (c.page_size - cur % c.page_size) := by
            have := Nat.mod_lt cur hps
            omega
          omega

lemma writeChunks_no_panic {env : Env} :
    ∀ (fuel : Nat) (c : WriteThroughCache) (data : List Nat)
      (remaining cur : Nat), 0 < c.page_size → remaining ≤ fuel →
    (writeChunks env fuel c data remaining cur).1 ≠ .error .panicked := by
  intro fuel
  induction fuel with
  | zero =>
    intro c data remaining cur _ hf
    have h0 : remaining = 0 := by omega
    rw [writeChunks]
    simp [h0]
  | succ fuel ih =>
    intro c data remaining cur hps hf
    by_cases h0 : remaining = 0
    · rw [writeChunks]
      simp [h0]
    · rw [writeChunks_step h0 (by omega)]
      have hcfg1 := read_page_cfg env c (cur / c.page_size)
      have hcfg2 := write_page_cfg env (read_page env c (cur / c.page_size)).2
        (cur / c.page_size)
        (patchList
          (match (read_page env c (cur / c.page_size)).1 with
           | .ok d => d
           | .error _ => List.replicate c.page_size 0)
          (cur % c.page_size)
          ((data.drop (data.length - remaining)).take
            (min remaining (c.page_size - cur % c.page_size))))
      have hnp := write_page_no_panic env (read_page env c (cur / c.page_size)).2
        (cur / c.page_size)
        (patchList
          (match (read_page env c (cur / c.page_size)).1 with
           | .ok d => d
           | .error _ => List.replicate c.page_size 0)
          (cur % c.page_size)
          ((data.drop (data.length - remaining)).take
            (min remaining (c.page_size - cur % c.page_size))))
      rcases hwp : write_page env (read_page env c (cur / c.page_size)).2
          (cur / c.page_size)
          (patchList
            (match (read_page env c (cur / c.page_size)).1 with
             | .ok d => d
             | .error _ => List.replicate c.page_size 0)
            (cur % c.page_size)
            ((data.drop (data.length - remaining)).take
              (min remaining (c.page_size - cur % c.page_size))))
        with ⟨res, c2⟩
      rw [hwp] at hcfg2 hnp
      cases res with
      | error e => exact hnp
      | ok u =>
        dsimp only
        apply ih
        · rw [hcfg2, hcfg1]
          exact hps
        · have : 1 ≤ min remaining (c.page_size - cur % c.page_size) := by
            have := Nat.mod_lt cur hps
            omega
          omega

/-! ## Claim C10 -/

/-- Counterexample to C10 as stated: at address `u64::MAX` with page size
512 the bound computation `(page_id + 1) * page_size` is exactly `2^64` —
it overflows `u64`.  Under the code's (release-profile) wrapping
arithmetic the read fails with `IoFailure` where the exact-arithmetic
variant fails with `OutOfRange`: the overflow changes behaviour (in a
debug build the multiplication would panic instead). -/
theorem C10_cex_bound_overflow :
    ((U64 - 1) / 512 + 1) * 512 = U64 ∧
    (read noFault (freshC 512 512) (U64 - 1) 1).1 = .error .IoFailure ∧
    (readNW noFault (freshC 512 512) (U64 - 1) 1).1 = .error .OutOfRange :=
  ⟨by decide, rfl, rfl⟩

/-- **C10** (amended): `read` and `write` return `Ok` or `Err` without
panicking for every input with `0 < page_size` (guaranteed by
construction); and provided `address + length + page_size ≤ 2^64`, none of
the `u64` computations — the bound `(page_id + 1) * page_size`, the seek
offsets, the `file_size` update and the per-chunk address advancement —
overflows: the wrapped operations coincide with their exact-arithmetic
counterparts.  For addresses within `page_size` bytes of `u64::MAX` the
bound computation does overflow and changes behaviour (counterexample). -/
theorem C10_no_overflow_amended
    (env : Env) (c : WriteThroughCache) (addr size : Nat) (data : List Nat)
    (hps : 0 < c.page_size)
    (hrb : addr + size + c.page_size ≤ U64)
    (hwb : addr + data.length + c.page_size ≤ U64) :
    read env c addr size = readNW env c addr size ∧
    write env c addr data = writeNW env c addr data ∧
    (read env c addr size).1 ≠ .error .panicked ∧
    (write env c addr data).1 ≠ .error .panicked :=
  ⟨readChunks_eqNW size c size addr [] hrb,
   writeChunks_eqNW data.length c data data.length addr hwb,
   readChunks_no_panic size c size addr [] hps (le_refl _),
   writeChunks_no_panic data.length c data data.length addr hps (le_refl _)⟩

/-- Witness for C10 (amended) at a concrete instance. -/
theorem C10_witness :
    read noFault (freshC 512 512) 0 1 = readNW noFault (freshC 512 512) 0 1 ∧
    write noFault (freshC 512 512) 0 [5] =
      writeNW noFault (freshC 512 512) 0 [5] ∧
    (read noFault (freshC 512 512) 0 1).1 ≠ .error .panicked ∧
    (write noFault (freshC 512 512) 0 [5]).1 ≠ .error .panicked :=
  C10_no_overflow_amended noFault (freshC 512 512) 0 1 [5]
    (by decide) (by decide) (by decide)
